import Mathlib

/-!
# PCSX2 string helpers and resource cache holder

A shallow embedding of `common/src/Utilities/StringHelpers.cpp` (the
`ToString` / `TryParse` / `Parse` family, `SplitString`,
`pxParseAssignmentString`) and of `Pcsx2App::GetResourceCache`
(`pcsx2/gui/AppRes.cpp`), with the properties proved about them.

A `wxString` is a sequence of characters.  C `int` and `long` values are
mathematical integers; the width of `long` is the parameter `longBits`
(32 on ILP32/LLP64 targets, 64 on LP64 targets) and `int` is 32 bits wide.
-/

namespace Pcsx2

/-- The wxString type: a sequence of characters. -/
abbrev wxString := List Char

/-- The wxArrayString type: a growable list of strings. -/
abbrev wxArrayString := List wxString

/-! ## wxStringTokenizer -/

/-- Modelled from the spec: the enumeration wxStringTokenizerMode of wxWidgets
(its header is not among the source files), the "configurable mode" on which
skipping empty tokens depends. -/
inductive wxStringTokenizerMode where
  | wxTOKEN_INVALID
  | wxTOKEN_DEFAULT
  | wxTOKEN_RET_EMPTY
  | wxTOKEN_RET_EMPTY_ALL
  | wxTOKEN_RET_DELIMS
  | wxTOKEN_STRTOK
  deriving DecidableEq, Repr

open wxStringTokenizerMode

/-- Modelled from the spec: the NUL character, which ends a C string and is the
value of the tokenizer's `m_lastDelim` when the last token was not ended by a
delimiter. -/
def NUL : Char := Char.ofNat 0

/-- Modelled from the spec: the C classification isspace in the "C" locale
(used by wxString::Trim through wxSafeIsspace, by strtol and by the tokenizer's
default mode); the C library is not among the source files.  The whitespace
characters are space, tab, line feed, vertical tab, form feed and carriage
return. -/
def isspace (c : Char) : Bool :=
  c.toNat = 32 || (9 ≤ c.toNat && c.toNat ≤ 13)

/-- Modelled from the spec: the state of a wxStringTokenizer (tokenzr.cpp of
wxWidgets is not among the source files), the "stateful cursor" over a
"tokenized string".  The iterator `m_pos` is kept as the offset `m_pos` from
the start of the string together with `m_rest`, the characters from the
iterator to the end of the string. -/
structure wxStringTokenizer where
  m_rest : wxString
  m_pos : Nat
  m_delims : wxString
  m_mode : wxStringTokenizerMode
  m_lastDelim : Char
  deriving DecidableEq, Repr

/-- Modelled from the spec: a character is a delimiter when it occurs in the
tokenizer's "set of delimiter characters". -/
def isDelim (delims : wxString) (c : Char) : Bool := delims.contains c

/-- Modelled from the spec: the constructor wxStringTokenizer(str, delims, mode)
(SetString followed by Reinit).  The default mode behaves like strtok when all
the delimiters are whitespace and returns empty tokens otherwise. -/
def wxStringTokenizer.mk3 (str delims : wxString) (mode : wxStringTokenizerMode) :
    wxStringTokenizer :=
  { m_rest := str
    m_pos := 0
    m_delims := delims
    m_mode :=
      if mode = wxTOKEN_DEFAULT then
        (if delims.all isspace then wxTOKEN_STRTOK else wxTOKEN_RET_EMPTY)
      else mode
    m_lastDelim := NUL }

/-- Modelled from the spec: wxStringTokenizer::HasMoreTokens.  There are more
tokens when a non-delimiter character is left; otherwise the answer depends on
the mode: the modes that return empty tokens still return the initial empty
token of a non-empty string, the mode that returns all empty tokens also
returns the one after the last delimiter, and the strtok mode never returns an
empty token. -/
def wxStringTokenizer.HasMoreTokens (t : wxStringTokenizer) : Bool :=
  if t.m_mode = wxTOKEN_INVALID then false
  else if t.m_rest.any (fun c => !isDelim t.m_delims c) then true
  else
    match t.m_mode with
    | wxTOKEN_RET_EMPTY => t.m_pos = 0 && !t.m_rest.isEmpty
    | wxTOKEN_RET_DELIMS => t.m_pos = 0 && !t.m_rest.isEmpty
    | wxTOKEN_RET_EMPTY_ALL => !t.m_rest.isEmpty || t.m_lastDelim != NUL
    | _ => false

/-- Modelled from the spec: one pass of the body of the loop of
wxStringTokenizer::GetNextToken, entered when there are more tokens: the token
runs up to the next delimiter (which is appended to it in the mode that returns
delimiters) or to the end of the string, and the cursor moves past the token
and its delimiter. -/
def wxStringTokenizer.takeToken (t : wxStringTokenizer) : wxString × wxStringTokenizer :=
  match t.m_rest.span (fun c => !isDelim t.m_delims c) with
  | (tok, []) =>
      (tok, { t with m_rest := [], m_pos := t.m_pos + tok.length, m_lastDelim := NUL })
  | (tok, d :: rest) =>
      (if t.m_mode = wxTOKEN_RET_DELIMS then tok ++ [d] else tok,
       { t with m_rest := rest, m_pos := t.m_pos + tok.length + 1, m_lastDelim := d })

/-- Modelled from the spec: the do-while loop of wxStringTokenizer::GetNextToken,
with a bound on the number of passes.  The loop ends when there are no more
tokens (the token is then empty), or after a pass whose token is not empty or
is allowed to be empty (every mode but strtok). -/
def wxStringTokenizer.GetNextTokenLoop :
    Nat → wxStringTokenizer → wxString × wxStringTokenizer
  | 0, t => ([], t)
  | fuel + 1, t =>
      if !t.HasMoreTokens then ([], t)
      else
        let r := t.takeToken
        if t.m_mode = wxTOKEN_STRTOK && r.1.isEmpty then
          wxStringTokenizer.GetNextTokenLoop fuel r.2
        else r

/-- Modelled from the spec: wxStringTokenizer::GetNextToken, which returns the
next token and advances the cursor.  Every pass but the last consumes one
character, so one pass more than the number of characters left is enough. -/
def wxStringTokenizer.GetNextToken (t : wxStringTokenizer) : wxString × wxStringTokenizer :=
  t.GetNextTokenLoop (t.m_rest.length + 1)

/-- The tokens still to come from a tokenizer, in the order in which repeated
calls of GetNextToken return them while HasMoreTokens holds, for a bounded
number of calls. -/
def tokensFrom : Nat → wxStringTokenizer → List wxString
  | 0, _ => []
  | fuel + 1, t =>
      if t.HasMoreTokens then
        t.GetNextToken.1 :: tokensFrom fuel t.GetNextToken.2
      else []

/-- A bound on the number of tokens a tokenizer can still return. -/
def wxStringTokenizer.bound (t : wxStringTokenizer) : Nat :=
  2 * t.m_rest.length + 2

/-- All the tokens still to come from a tokenizer. -/
def wxStringTokenizer.tokens (t : wxStringTokenizer) : List wxString :=
  tokensFrom t.bound t

/-! ## Integer conversion and formatting -/

/-- Modelled from the spec: the C classification of the decimal digits. -/
def isdigit (c : Char) : Bool := 48 ≤ c.toNat && c.toNat ≤ 57

/-- Modelled from the spec: the value strtol gives a decimal digit character. -/
def digitValue (c : Char) : Nat := c.toNat - 48

/-- Modelled from the spec: the value strtol gives a run of decimal digits, most
significant first. -/
def digitsValue (ds : List Char) : Nat :=
  ds.foldl (fun acc c => 10 * acc + digitValue c) 0

/-- Modelled from the spec: the values of a C long that is `longBits` bits wide
(the width is fixed by the target, not by the source files). -/
def inLongRange (longBits : Nat) (v : Int) : Bool :=
  decide (-(2 ^ longBits : Int) ≤ 2 * v) && decide (2 * v < (2 ^ longBits : Int))

/-- Modelled from the spec: the values of a C int (32 bits), the "representable
integer range" of the coordinates. -/
def inIntRange (v : Int) : Bool :=
  decide (-(2 ^ 31 : Int) ≤ v) && decide (v < (2 ^ 31 : Int))

/-- The conversion of a long to an int in the assignments `dest.x = result[0]`
and `dest.SetWidth(result[0])`: the value is reduced modulo 2^32 into the range
of int. -/
def toInt (v : Int) : Int := (v + 2 ^ 31) % 2 ^ 32 - 2 ^ 31

/-- Modelled from the spec: the optional sign read by strtol, and the text
after it. -/
def splitSign : wxString → Bool × wxString
  | [] => (false, [])
  | c :: r => if c = '-' then (true, r) else if c = '+' then (false, r) else (false, c :: r)

/-- Modelled from the spec: wxString::ToLong in base 10 (wxWidgets' string.cpp
is not among the source files): "integer parsing of tokens must reject
non-numeric tokens and signal failure rather than silently defaulting to zero".
The conversion is that of strtol on the C string (which ends at the first
NUL): whitespace is skipped, then an optional sign and the longest run of
decimal digits are read.  It fails when no digit was read, when the value does
not fit a long, and when characters are left after the digits. -/
def ToLong (longBits : Nat) (s : wxString) : Option Int :=
  let start := s.takeWhile (fun c => c != NUL)
  let body := splitSign (start.dropWhile isspace)
  let ds := body.2.span isdigit
  if ds.1.isEmpty then none
  else
    let val : Int := if body.1 then -(digitsValue ds.1 : Int) else (digitsValue ds.1 : Int)
    if !inLongRange longBits val then none
    else if ds.2.isEmpty then some val
    else none

/-- Modelled from the spec: the character that the format "%d" writes for a
decimal digit. -/
def digitChar (d : Nat) : Char := Char.ofNat (48 + d)

/-- Modelled from the spec: the decimal digits that the format "%d" writes for
a natural number, most significant first, with a bound on the number of digits
after the first. -/
def natToDec : Nat → Nat → wxString
  | 0, n => [digitChar (n % 10)]
  | fuel + 1, n =>
      if n < 10 then [digitChar n] else natToDec fuel (n / 10) ++ [digitChar (n % 10)]

/-- Modelled from the spec: the text that `wxString() << i` appends for an int
(the format "%d", wxWidgets' string.h is not among the source files): the
decimal digits of the absolute value, after a minus sign when the value is
negative. -/
def formatInt (i : Int) : wxString :=
  if i < 0 then '-' :: natToDec i.natAbs i.natAbs else natToDec i.natAbs i.natAbs

/-! ## Geometry values -/

/-- Modelled from the spec: wxPoint of wx/gdicmn.h (not among the source
files), "Point {x: integer, y: integer}". -/
structure wxPoint where
  x : Int
  y : Int
  deriving DecidableEq, Repr

/-- Modelled from the spec: wxSize of wx/gdicmn.h (not among the source files),
"Size {width: integer, height: integer}". -/
structure wxSize where
  width : Int
  height : Int
  deriving DecidableEq, Repr

/-- Modelled from the spec: wxRect of wx/gdicmn.h (not among the source files),
"Rect {origin: Point, size: Size}", held as the four fields x, y, width and
height. -/
structure wxRect where
  x : Int
  y : Int
  width : Int
  height : Int
  deriving DecidableEq, Repr

/-- Modelled from the spec: the accessor wxSize::GetWidth of wx/gdicmn.h. -/
def wxSize.GetWidth (s : wxSize) : Int := s.width

/-- Modelled from the spec: the accessor wxSize::GetHeight of wx/gdicmn.h. -/
def wxSize.GetHeight (s : wxSize) : Int := s.height

/-- Modelled from the spec: the accessor wxRect::GetLeftTop of wx/gdicmn.h, the
origin of the rectangle. -/
def wxRect.GetLeftTop (r : wxRect) : wxPoint := { x := r.x, y := r.y }

/-- Modelled from the spec: the accessor wxRect::GetSize of wx/gdicmn.h. -/
def wxRect.GetSize (r : wxRect) : wxSize := { width := r.width, height := r.height }

/-- Modelled from the spec: the constructor wxRect(point, size) of wx/gdicmn.h,
the rectangle with the given origin and size. -/
def wxRect.ofPointSize (pt : wxPoint) (size : wxSize) : wxRect :=
  { x := pt.x, y := pt.y, width := size.width, height := size.height }

/-! ## ToString -/

/-- ToString(const wxPoint&, const wxString&):
`wxString() << src.x << separator << src.y`. -/
def wxPoint.ToString (src : wxPoint) (separator : wxString) : wxString :=
  (([] ++ formatInt src.x) ++ separator) ++ formatInt src.y

/-- ToString(const wxSize&, const wxString&):
`wxString() << src.GetWidth() << separator << src.GetHeight()`. -/
def wxSize.ToString (src : wxSize) (separator : wxString) : wxString :=
  (([] ++ formatInt src.GetWidth) ++ separator) ++ formatInt src.GetHeight

/-- ToString(const wxRect&, const wxString&):
`ToString(src.GetLeftTop(), separator) << separator << ToString(src.GetSize(), separator)`. -/
def wxRect.ToString (src : wxRect) (separator : wxString) : wxString :=
  (src.GetLeftTop.ToString separator ++ separator) ++ src.GetSize.ToString separator

/-! ## TryParse -/

/-- TryParse(wxPoint &dest, wxStringTokenizer &parts): the result, the
destination and the tokenizer after the call. -/
def wxPoint.TryParseTokens (longBits : Nat) (dest : wxPoint) (parts : wxStringTokenizer) :
    Bool × wxPoint × wxStringTokenizer :=
  if !parts.HasMoreTokens then (false, dest, parts)
  else
    match ToLong longBits parts.GetNextToken.1 with
    | none => (false, dest, parts.GetNextToken.2)
    | some r0 =>
        let parts1 := parts.GetNextToken.2
        if !parts1.HasMoreTokens then (false, dest, parts1)
        else
          match ToLong longBits parts1.GetNextToken.1 with
          | none => (false, dest, parts1.GetNextToken.2)
          | some r1 => (true, { x := toInt r0, y := toInt r1 }, parts1.GetNextToken.2)

/-- TryParse(wxSize &dest, wxStringTokenizer &parts): the result, the
destination and the tokenizer after the call. -/
def wxSize.TryParseTokens (longBits : Nat) (dest : wxSize) (parts : wxStringTokenizer) :
    Bool × wxSize × wxStringTokenizer :=
  if !parts.HasMoreTokens then (false, dest, parts)
  else
    match ToLong longBits parts.GetNextToken.1 with
    | none => (false, dest, parts.GetNextToken.2)
    | some r0 =>
        let parts1 := parts.GetNextToken.2
        if !parts1.HasMoreTokens then (false, dest, parts1)
        else
          match ToLong longBits parts1.GetNextToken.1 with
          | none => (false, dest, parts1.GetNextToken.2)
          | some r1 => (true, { width := toInt r0, height := toInt r1 }, parts1.GetNextToken.2)

/-- TryParse(wxPoint &dest, const wxString &src, const wxPoint &defval,
const wxString &separators): the result and the destination after the call.
The destination on entry is overwritten by `dest = defval`. -/
def wxPoint.TryParse (longBits : Nat) (_dest : wxPoint) (src : wxString) (defval : wxPoint)
    (separators : wxString) : Bool × wxPoint :=
  let dest := defval
  let parts := wxStringTokenizer.mk3 src separators wxTOKEN_DEFAULT
  let r := wxPoint.TryParseTokens longBits dest parts
  (r.1, r.2.1)

/-- TryParse(wxSize &dest, const wxString &src, const wxSize &defval,
const wxString &separators): the result and the destination after the call. -/
def wxSize.TryParse (longBits : Nat) (_dest : wxSize) (src : wxString) (defval : wxSize)
    (separators : wxString) : Bool × wxSize :=
  let dest := defval
  let parts := wxStringTokenizer.mk3 src separators wxTOKEN_DEFAULT
  let r := wxSize.TryParseTokens longBits dest parts
  (r.1, r.2.1)

/-- TryParse(wxRect &dest, const wxString &src, const wxRect &defval,
const wxString &separators): the result, the destination and the tokenizer
after the call.  The point and the size are parsed into default-constructed
locals from the one tokenizer. -/
def wxRect.TryParseAux (longBits : Nat) (_dest : wxRect) (src : wxString) (defval : wxRect)
    (separators : wxString) : Bool × wxRect × wxStringTokenizer :=
  let dest := defval
  let parts := wxStringTokenizer.mk3 src separators wxTOKEN_DEFAULT
  let point : wxPoint := { x := 0, y := 0 }
  let size : wxSize := { width := 0, height := 0 }
  let rp := wxPoint.TryParseTokens longBits point parts
  if !rp.1 then (false, dest, rp.2.2)
  else
    let rs := wxSize.TryParseTokens longBits size rp.2.2
    if !rs.1 then (false, dest, rs.2.2)
    else (true, wxRect.ofPointSize rp.2.1 rs.2.1, rs.2.2)

/-- TryParse(wxRect &dest, const wxString &src, const wxRect &defval,
const wxString &separators): the result and the destination after the call. -/
def wxRect.TryParse (longBits : Nat) (dest : wxRect) (src : wxString) (defval : wxRect)
    (separators : wxString) : Bool × wxRect :=
  let r := wxRect.TryParseAux longBits dest src defval separators
  (r.1, r.2.1)

/-! ## SplitString -/

/-- The loop of SplitString, `while (parts.HasMoreTokens()) dest.Add(parts.GetNextToken())`,
with a bound on the number of passes: the list and the tokenizer after it. -/
def SplitStringLoop : Nat → wxArrayString → wxStringTokenizer → wxArrayString × wxStringTokenizer
  | 0, dest, parts => (dest, parts)
  | fuel + 1, dest, parts =>
      if parts.HasMoreTokens then
        SplitStringLoop fuel (dest ++ [parts.GetNextToken.1]) parts.GetNextToken.2
      else (dest, parts)

/-- The body of SplitString(dest, src, delims, mode): the list and the local
tokenizer when the function returns. -/
def SplitStringRun (dest : wxArrayString) (src delims : wxString)
    (mode : wxStringTokenizerMode) : wxArrayString × wxStringTokenizer :=
  let parts := wxStringTokenizer.mk3 src delims mode
  SplitStringLoop parts.bound dest parts

/-- SplitString(dest, src, delims, mode): the destination list after the call. -/
def SplitString (dest : wxArrayString) (src delims : wxString)
    (mode : wxStringTokenizerMode) : wxArrayString :=
  (SplitStringRun dest src delims mode).1

/-! ## Parse -/

/-- Modelled from the spec: Exception::ParseError (declared in a header that is
not among the source files), the error condition "carrying the identity of the
calling context and the offending input text" in its message. -/
structure ParseError where
  message : wxString
  deriving DecidableEq, Repr

/-- The text of the ParseError raised by Parse:
`"Parse failure on call to " + fromUTF8(__WXFUNCTION__) + ": " + src`, where
`__WXFUNCTION__` is the name of the enclosing function. -/
def parseFailureMessage (src : wxString) : wxString :=
  (("Parse failure on call to ".toList ++ "Parse".toList) ++ ": ".toList) ++ src

/-- An argument of a call of TryParse: a point, a size, a rectangle, a text or a
tokenizer. -/
inductive Arg where
  | point (v : wxPoint)
  | size (v : wxSize)
  | rect (v : wxRect)
  | text (v : wxString)
  | tokenizer (v : wxStringTokenizer)
  deriving DecidableEq, Repr

/-- The default arguments that the declarations of TryParse in StringHelpers.h
(which is not among the source files) may give to the parameters `defval` and
`separators`; they are a parameter of the model. -/
structure TryParseDefaults where
  point : wxPoint
  size : wxSize
  rect : wxRect
  separators : wxString
  deriving DecidableEq, Repr

/-- A call `TryParse(args...)` resolved against the five overloads that
StringHelpers.cpp defines: the result and the destination after the call, or
nothing when no overload takes these arguments.  The arguments stand for the
parameters in order, so in a call with three arguments the third stands for
`defval`; the trailing parameters `defval` and `separators` may be left out and
are then taken from the defaults. -/
def TryParseCall (dflt : TryParseDefaults) (longBits : Nat) : List Arg → Option (Bool × Arg)
  | [Arg.point dest, Arg.tokenizer parts] =>
      some ((wxPoint.TryParseTokens longBits dest parts).1,
        Arg.point (wxPoint.TryParseTokens longBits dest parts).2.1)
  | [Arg.size dest, Arg.tokenizer parts] =>
      some ((wxSize.TryParseTokens longBits dest parts).1,
        Arg.size (wxSize.TryParseTokens longBits dest parts).2.1)
  | [Arg.point dest, Arg.text src, Arg.point defval, Arg.text separators] =>
      some ((wxPoint.TryParse longBits dest src defval separators).1,
        Arg.point (wxPoint.TryParse longBits dest src defval separators).2)
  | [Arg.size dest, Arg.text src, Arg.size defval, Arg.text separators] =>
      some ((wxSize.TryParse longBits dest src defval separators).1,
        Arg.size (wxSize.TryParse longBits dest src defval separators).2)
  | [Arg.rect dest, Arg.text src, Arg.rect defval, Arg.text separators] =>
      some ((wxRect.TryParse longBits dest src defval separators).1,
        Arg.rect (wxRect.TryParse longBits dest src defval separators).2)
  | [Arg.point dest, Arg.text src, Arg.point defval] =>
      some ((wxPoint.TryParse longBits dest src defval dflt.separators).1,
        Arg.point (wxPoint.TryParse longBits dest src defval dflt.separators).2)
  | [Arg.size dest, Arg.text src, Arg.size defval] =>
      some ((wxSize.TryParse longBits dest src defval dflt.separators).1,
        Arg.size (wxSize.TryParse longBits dest src defval dflt.separators).2)
  | [Arg.rect dest, Arg.text src, Arg.rect defval] =>
      some ((wxRect.TryParse longBits dest src defval dflt.separators).1,
        Arg.rect (wxRect.TryParse longBits dest src defval dflt.separators).2)
  | [Arg.point dest, Arg.text src] =>
      some ((wxPoint.TryParse longBits dest src dflt.point dflt.separators).1,
        Arg.point (wxPoint.TryParse longBits dest src dflt.point dflt.separators).2)
  | [Arg.size dest, Arg.text src] =>
      some ((wxSize.TryParse longBits dest src dflt.size dflt.separators).1,
        Arg.size (wxSize.TryParse longBits dest src dflt.size dflt.separators).2)
  | [Arg.rect dest, Arg.text src] =>
      some ((wxRect.TryParse longBits dest src dflt.rect dflt.separators).1,
        Arg.rect (wxRect.TryParse longBits dest src dflt.rect dflt.separators).2)
  | _ => none

/-- The types T at which the template Parse is used ("wxPoint, wxRect, and
wxSize"): the value of a default-constructed `T retval;`, and the passage of a
T as an argument of TryParse and back. -/
class ParseTarget (T : Type) where
  init : T
  toArg : T → Arg
  ofArg : Arg → Option T

instance : ParseTarget wxPoint where
  init := { x := 0, y := 0 }
  toArg := Arg.point
  ofArg := fun a => match a with
    | Arg.point v => some v
    | _ => none

instance : ParseTarget wxSize where
  init := { width := 0, height := 0 }
  toArg := Arg.size
  ofArg := fun a => match a with
    | Arg.size v => some v
    | _ => none

instance : ParseTarget wxRect where
  init := { x := 0, y := 0, width := 0, height := 0 }
  toArg := Arg.rect
  ofArg := fun a => match a with
    | Arg.rect v => some v
    | _ => none

/-- The template Parse<T>(src, separators): the value returned or the
ParseError thrown, or nothing when the call `TryParse(retval, src, separators)`
that its body makes has no overload to go to (the template cannot then be
instantiated at T). -/
def Parse {T : Type} [ParseTarget T] (dflt : TryParseDefaults) (longBits : Nat)
    (src separators : wxString) : Option (Except ParseError T) :=
  let retval : T := ParseTarget.init
  match TryParseCall dflt longBits [ParseTarget.toArg retval, Arg.text src, Arg.text separators] with
  | none => none
  | some (ok, dest) =>
      match (ParseTarget.ofArg dest : Option T) with
      | none => none
      | some retval1 =>
          if !ok then some (Except.error { message := parseFailureMessage src })
          else some (Except.ok retval1)

/-! ## pxParseAssignmentString -/

/-- Modelled from the spec: wxString::StartsWith (wxWidgets' string.cpp is not
among the source files): the text "starts with" the given text. -/
def StartsWith (s start : wxString) : Bool := start.isPrefixOf s

/-- Modelled from the spec: wxString::BeforeFirst, "everything before" the
first occurrence of the character, and the whole text when it does not occur. -/
def BeforeFirst (s : wxString) (ch : Char) : wxString := s.takeWhile (fun c => c != ch)

/-- Modelled from the spec: wxString::AfterFirst, "everything after" the first
occurrence of the character, and the empty text when it does not occur. -/
def AfterFirst (s : wxString) (ch : Char) : wxString := (s.dropWhile (fun c => c != ch)).drop 1

/-- Modelled from the spec: wxString::Trim(bFromRight), which removes the
whitespace at the end of the text when bFromRight is true and at its start when
it is false. -/
def Trim (s : wxString) (bFromRight : Bool) : wxString :=
  if bFromRight then (s.reverse.dropWhile isspace).reverse else s.dropWhile isspace

/-- The function pxParseAssignmentString(src, ldest, rdest): the result and the
two destinations after the call. -/
def pxParseAssignmentString (src ldest rdest : wxString) : Bool × wxString × wxString :=
  if StartsWith src "--".toList || StartsWith src "//".toList || StartsWith src ";".toList then
    (false, ldest, rdest)
  else
    (true, Trim (Trim (BeforeFirst src '=') true) false,
      Trim (Trim (AfterFirst src '=') true) false)

/-! ## The resource cache holder -/

/-- Modelled from the spec: a constructed pxAppResources object, the "resource
cache instance" (the class is declared in App.h, which is not among the source
files); `id` stands for its identity (its address): the number of objects
constructed before it. -/
structure pxAppResources where
  id : Nat
  deriving DecidableEq, Repr

/-- Modelled from the spec: the part of Pcsx2App that GetResourceCache uses (the
class is declared in App.h, which is not among the source files): the owning
pointer `m_Resources` (the "optional slot", empty or holding an instance), the
mutex `m_mtx_Resources` (true when locked), and the count of the pxAppResources
objects constructed so far. -/
structure Pcsx2App where
  m_Resources : Option pxAppResources
  m_mtx_Resources : Bool
  constructed : Nat
  deriving DecidableEq, Repr

/-- Pcsx2App::GetResourceCache called by a single thread: the instance whose
reference is returned and the application afterwards, or nothing when the
mutex is already locked (the call then blocks).  The scoped lock is taken on
entry and released on return. -/
def Pcsx2App.GetResourceCache (app : Pcsx2App) : Option (pxAppResources × Pcsx2App) :=
  if app.m_mtx_Resources then none
  else
    let locked : Pcsx2App := { app with m_mtx_Resources := true }
    let held : Pcsx2App :=
      if locked.m_Resources.isNone then
        { locked with
          m_Resources := some { id := locked.constructed }
          constructed := locked.constructed + 1 }
      else locked
    match held.m_Resources with
    | none => none
    | some res => some (res, { held with m_mtx_Resources := false })

/-- A sequential series of calls of GetResourceCache: the instances returned,
in order, and the application after the last call. -/
def Pcsx2App.callSeries : Nat → Pcsx2App → Option (List pxAppResources × Pcsx2App)
  | 0, app => some ([], app)
  | n + 1, app =>
      match app.GetResourceCache with
      | none => none
      | some (res, app1) =>
          match Pcsx2App.callSeries n app1 with
          | none => none
          | some (rs, app2) => some (res :: rs, app2)

/-! ## ParsedAssignmentString -/

/-- Modelled from the spec: the struct ParsedAssignmentString (declared in
StringHelpers.h, which is not among the source files), with the three members
that its constructor sets. -/
structure ParsedAssignmentString where
  lvalue : wxString
  rvalue : wxString
  IsComment : Bool
  deriving DecidableEq, Repr

/-- The constructor ParsedAssignmentString::ParsedAssignmentString(src):
`IsComment = pxParseAssignmentString(src, lvalue, rvalue)`, where the members
lvalue and rvalue are empty strings before the call. -/
def ParsedAssignmentString.ctor (src : wxString) : ParsedAssignmentString :=
  let r := pxParseAssignmentString src [] []
  { lvalue := r.2.1, rvalue := r.2.2, IsComment := r.1 }

/-! ## GetResourceCache called by several threads -/

/-- The place a thread has reached in Pcsx2App::GetResourceCache: before the
scoped lock is taken, at the test `if( !m_Resources )`, at the assignment that
constructs the instance, at `return *m_Resources`, at the release of the
scoped lock with the reference to return, and after the return with the
reference returned. -/
inductive ThreadPc where
  | entry
  | test
  | construct
  | ret
  | unlock (res : pxAppResources)
  | done (res : pxAppResources)
  deriving DecidableEq, Repr

/-- A thread is inside the scoped lock from the test to the release. -/
def ThreadPc.crit : ThreadPc → Bool
  | ThreadPc.test => true
  | ThreadPc.construct => true
  | ThreadPc.ret => true
  | ThreadPc.unlock _ => true
  | _ => false

/-- A thread has returned from GetResourceCache. -/
def ThreadPc.isDone : ThreadPc → Bool
  | ThreadPc.done _ => true
  | _ => false

/-- The largest number of steps a thread at this place still takes. -/
def ThreadPc.remaining : ThreadPc → Nat
  | ThreadPc.entry => 5
  | ThreadPc.test => 4
  | ThreadPc.construct => 3
  | ThreadPc.ret => 2
  | ThreadPc.unlock _ => 1
  | ThreadPc.done _ => 0

/-- An application object together with the threads that are calling
GetResourceCache on it. -/
structure Concurrent where
  app : Pcsx2App
  threads : List ThreadPc
  deriving DecidableEq, Repr

/-- One step of thread `i` of Pcsx2App::GetResourceCache, or nothing when the
thread cannot move (there is no such thread, it waits for the mutex, or it has
returned).  Modelled from the spec: the scoped lock is "a mutual-exclusion
lock scoped to this call" (Threading::ScopedLock is not among the source
files): taking it waits while the mutex is locked, and it is released when the
call returns. -/
def Concurrent.step (s : Concurrent) (i : Nat) : Option Concurrent :=
  match s.threads[i]? with
  | none => none
  | some ThreadPc.entry =>
      if s.app.m_mtx_Resources then none
      else some { app := { s.app with m_mtx_Resources := true },
                  threads := s.threads.set i ThreadPc.test }
  | some ThreadPc.test =>
      if s.app.m_Resources.isNone then
        some { s with threads := s.threads.set i ThreadPc.construct }
      else some { s with threads := s.threads.set i ThreadPc.ret }
  | some ThreadPc.construct =>
      some { app := { s.app with
                      m_Resources := some { id := s.app.constructed }
                      constructed := s.app.constructed + 1 },
             threads := s.threads.set i ThreadPc.ret }
  | some ThreadPc.ret =>
      match s.app.m_Resources with
      | none => none
      | some res => some { s with threads := s.threads.set i (ThreadPc.unlock res) }
  | some (ThreadPc.unlock res) =>
      some { app := { s.app with m_mtx_Resources := false },
             threads := s.threads.set i (ThreadPc.done res) }
  | some (ThreadPc.done _) => none

/-- The run of a schedule: the threads named in the list move one step each, in
that order; nothing when a thread named cannot move. -/
def Concurrent.run : List Nat → Concurrent → Option Concurrent
  | [], s => some s
  | i :: rest, s =>
      match s.step i with
      | none => none
      | some s1 => Concurrent.run rest s1

/-- The state in which `n` threads are about to call GetResourceCache on the
application. -/
def Concurrent.start (n : Nat) (app : Pcsx2App) : Concurrent :=
  { app := app, threads := List.replicate n ThreadPc.entry }

/-- The number of steps the threads can still take, at most. -/
def Concurrent.remaining (s : Concurrent) : Nat :=
  (s.threads.map ThreadPc.remaining).sum

/-- The mutex is locked exactly when a thread is inside the scoped lock, and at
most one thread is inside. -/
def lockedByOne (mtx : Bool) (threads : List ThreadPc) : Prop :=
  (mtx = false → ∀ (j : Nat) (pc : ThreadPc), threads[j]? = some pc → pc.crit = false) ∧
  (mtx = true → ∃ (j : Nat) (pc : ThreadPc), threads[j]? = some pc ∧ pc.crit = true) ∧
  (∀ (j k : Nat) (pj pk : ThreadPc), threads[j]? = some pj → threads[k]? = some pk →
    pj.crit = true → pk.crit = true → j = k)

/-- Either nothing has been constructed since the start (when `c` objects had
been) and no thread is past the construction, or the instance numbered `c` has
been constructed, is held, no thread is at the construction, and every thread
past the return statement refers to that instance. -/
def constructedOnce (c : Nat) (s : Concurrent) : Prop :=
  (s.app.m_Resources = none ∧ s.app.constructed = c ∧
      ∀ (j : Nat) (pc : ThreadPc), s.threads[j]? = some pc →
        pc = ThreadPc.entry ∨ pc = ThreadPc.test ∨ pc = ThreadPc.construct) ∨
  (s.app.m_Resources = some { id := c } ∧ s.app.constructed = c + 1 ∧
      ∀ (j : Nat) (pc : ThreadPc), s.threads[j]? = some pc → pc ≠ ThreadPc.construct ∧
        (∀ r, pc = ThreadPc.unlock r ∨ pc = ThreadPc.done r → r = { id := c }))

/-- What holds of every state that the threads can reach from a start with the
slot empty, the mutex free and `c` objects constructed before. -/
def Concurrent.Inv (c : Nat) (s : Concurrent) : Prop :=
  lockedByOne s.app.m_mtx_Resources s.threads ∧ constructedOnce c s

/-! ## Definitions used in the statements -/

/-- The quantity that every call of GetNextToken decreases while there are more
tokens. -/
def wxStringTokenizer.measure (t : wxStringTokenizer) : Nat :=
  2 * t.m_rest.length + (if t.m_lastDelim = NUL then 0 else 1)

/-- The trimming the spec describes: `out` is the text `s` with its leading
and trailing whitespace removed and everything between kept, that is, `s` is
`out` between two runs of whitespace and `out` neither starts nor ends with a
whitespace character. -/
def IsTrimOf (out s : wxString) : Prop :=
  ∃ lead trail : wxString, s = lead ++ out ++ trail ∧
    (∀ c ∈ lead, isspace c = true) ∧ (∀ c ∈ trail, isspace c = true) ∧
    (∀ c, out.head? = some c → isspace c = false) ∧
    (∀ c, out.getLast? = some c → isspace c = false)

/-! ## The tokenizer: termination and the token list -/

/-- The token lists of the text "a::b:" split at ':' in each mode: the default
and the empty-token modes drop the trailing empty token, the mode that returns
all empty tokens keeps it, the strtok mode returns no empty token, and the
mode that returns delimiters appends each delimiter to its token. -/
theorem tokens_by_mode :
    (wxStringTokenizer.mk3 "a::b:".toList ":".toList wxTOKEN_DEFAULT).tokens
      = ["a".toList, [], "b".toList] ∧
    (wxStringTokenizer.mk3 "a::b:".toList ":".toList wxTOKEN_RET_EMPTY).tokens
      = ["a".toList, [], "b".toList] ∧
    (wxStringTokenizer.mk3 "a::b:".toList ":".toList wxTOKEN_RET_EMPTY_ALL).tokens
      = ["a".toList, [], "b".toList, []] ∧
    (wxStringTokenizer.mk3 "a::b:".toList ":".toList wxTOKEN_STRTOK).tokens
      = ["a".toList, "b".toList] ∧
    (wxStringTokenizer.mk3 "a::b:".toList ":".toList wxTOKEN_RET_DELIMS).tokens
      = ["a:".toList, ":".toList, "b:".toList] ∧
    (wxStringTokenizer.mk3 "a  b ".toList " ".toList wxTOKEN_DEFAULT).tokens
      = ["a".toList, "b".toList] ∧
    (wxStringTokenizer.mk3 "a::b:".toList ":".toList wxTOKEN_INVALID).tokens = [] := by
  decide

theorem takeToken_rest_le (t : wxStringTokenizer) :
    t.takeToken.2.m_rest.length ≤ t.m_rest.length := by
  unfold wxStringTokenizer.takeToken
  rw [List.span_eq_take_drop]
  have h := List.takeWhile_append_dropWhile (fun c => !isDelim t.m_delims c) t.m_rest
  split
  · simp
  · next tok d rest heq =>
    simp only [Prod.mk.injEq] at heq
    have hl := congrArg List.length h
    rw [heq.2] at hl
    simp at hl ⊢
    omega

theorem takeToken_rest_lt (t : wxStringTokenizer) (hne : t.m_rest ≠ []) :
    t.takeToken.2.m_rest.length < t.m_rest.length := by
  unfold wxStringTokenizer.takeToken
  rw [List.span_eq_take_drop]
  have h := List.takeWhile_append_dropWhile (fun c => !isDelim t.m_delims c) t.m_rest
  split
  · simp
    exact List.length_pos.mpr hne
  · next tok d rest heq =>
    simp only [Prod.mk.injEq] at heq
    have hl := congrArg List.length h
    rw [heq.2] at hl
    simp at hl ⊢
    omega

theorem takeToken_nil (t : wxStringTokenizer) (hnil : t.m_rest = []) :
    t.takeToken = ([], { t with m_rest := [], m_pos := t.m_pos + 0, m_lastDelim := NUL }) := by
  unfold wxStringTokenizer.takeToken
  rw [hnil]
  rfl

theorem hasMore_rest_or_last (t : wxStringTokenizer) (h : t.HasMoreTokens = true) :
    t.m_rest ≠ [] ∨ t.m_lastDelim ≠ NUL := by
  by_cases hne : t.m_rest = []
  · right
    unfold wxStringTokenizer.HasMoreTokens at h
    rw [hne] at h
    cases hm : t.m_mode <;> simp [hm] at h
    exact h
  · exact Or.inl hne

theorem hasMore_strtok_rest (t : wxStringTokenizer) (h : t.HasMoreTokens = true)
    (hm : t.m_mode = wxTOKEN_STRTOK) : t.m_rest ≠ [] := by
  intro hne
  unfold wxStringTokenizer.HasMoreTokens at h
  rw [hne, hm] at h
  simp at h

theorem takeToken_measure (t : wxStringTokenizer) (h : t.HasMoreTokens = true) :
    t.takeToken.2.measure < t.measure := by
  by_cases hne : t.m_rest = []
  · have hl : t.m_lastDelim ≠ NUL := by
      rcases hasMore_rest_or_last t h with h1 | h1
      · exact absurd hne h1
      · exact h1
    rw [takeToken_nil t hne]
    simp [wxStringTokenizer.measure, hne, hl]
  · have hlt := takeToken_rest_lt t hne
    unfold wxStringTokenizer.measure
    split <;> split <;> omega

theorem loop_measure_le (fuel : Nat) (t : wxStringTokenizer) :
    (t.GetNextTokenLoop fuel).2.measure ≤ t.measure := by
  induction fuel generalizing t with
  | zero => simp [wxStringTokenizer.GetNextTokenLoop]
  | succ n ih =>
    unfold wxStringTokenizer.GetNextTokenLoop
    by_cases hm : t.HasMoreTokens = true
    · have h1 := takeToken_measure t hm
      simp only [hm, Bool.not_true, Bool.false_eq_true, if_false]
      split
      · exact le_trans (ih _) (le_of_lt h1)
      · exact le_of_lt h1
    · simp [hm]

theorem loop_measure_lt (fuel : Nat) (t : wxStringTokenizer) (hm : t.HasMoreTokens = true) :
    (t.GetNextTokenLoop (fuel + 1)).2.measure < t.measure := by
  unfold wxStringTokenizer.GetNextTokenLoop
  have h1 := takeToken_measure t hm
  simp only [hm, Bool.not_true, Bool.false_eq_true, if_false]
  split
  · exact lt_of_le_of_lt (loop_measure_le _ _) h1
  · exact h1

theorem GetNextToken_measure (t : wxStringTokenizer) (hm : t.HasMoreTokens = true) :
    t.GetNextToken.2.measure < t.measure :=
  loop_measure_lt _ t hm

/-- The loop of GetNextToken gives the same result for every bound above the
number of characters left: the bound used by GetNextToken is never reached. -/
theorem GetNextTokenLoop_stable (f1 f2 : Nat) (t : wxStringTokenizer)
    (h1 : t.m_rest.length < f1) (h2 : t.m_rest.length < f2) :
    t.GetNextTokenLoop f1 = t.GetNextTokenLoop f2 := by
  induction f1 generalizing f2 t with
  | zero => omega
  | succ a ih =>
    cases f2 with
    | zero => omega
    | succ b =>
      unfold wxStringTokenizer.GetNextTokenLoop
      by_cases hm : t.HasMoreTokens = true
      · simp only [hm, Bool.not_true, Bool.false_eq_true, if_false]
        by_cases hs : (t.m_mode = wxTOKEN_STRTOK && t.takeToken.1.isEmpty) = true
        · simp only [hs, if_true]
          have hmode : t.m_mode = wxTOKEN_STRTOK := by
            simp only [Bool.and_eq_true, decide_eq_true_eq] at hs
            exact hs.1
          have hlt := takeToken_rest_lt t (hasMore_strtok_rest t hm hmode)
          exact ih b _ (by omega) (by omega)
        · simp only [hs, Bool.false_eq_true, if_false]
      · simp [hm]

theorem tokensFrom_stable (f1 f2 : Nat) (t : wxStringTokenizer)
    (h1 : t.measure < f1) (h2 : t.measure < f2) :
    tokensFrom f1 t = tokensFrom f2 t := by
  induction f1 generalizing f2 t with
  | zero => omega
  | succ a ih =>
    cases f2 with
    | zero => omega
    | succ b =>
      unfold tokensFrom
      by_cases hm : t.HasMoreTokens = true
      · have hlt := GetNextToken_measure t hm
        simp only [hm, if_true]
        rw [ih b _ (by omega) (by omega)]
      · simp [hm]

theorem tokensFrom_succ (fuel : Nat) (t : wxStringTokenizer) :
    tokensFrom (fuel + 1) t =
      if t.HasMoreTokens then t.GetNextToken.1 :: tokensFrom fuel t.GetNextToken.2 else [] := rfl

theorem measure_lt_bound (t : wxStringTokenizer) : t.measure < t.bound := by
  unfold wxStringTokenizer.measure wxStringTokenizer.bound
  split <;> omega

/-- The token list of a tokenizer is its next token followed by the token list
of the tokenizer after GetNextToken, and is empty when there are no more
tokens. -/
theorem tokens_unfold (t : wxStringTokenizer) :
    t.tokens = if t.HasMoreTokens then t.GetNextToken.1 :: t.GetNextToken.2.tokens else [] := by
  unfold wxStringTokenizer.tokens
  rw [tokensFrom_stable t.bound (t.measure + 1) t (measure_lt_bound t) (Nat.lt_succ_self _)]
  rw [tokensFrom_succ]
  by_cases hm : t.HasMoreTokens = true
  · have hlt := GetNextToken_measure t hm
    simp only [hm, if_true]
    rw [tokensFrom_stable t.measure t.GetNextToken.2.bound _ hlt (measure_lt_bound _)]
  · simp [hm]

theorem tokens_of_hasMore (t : wxStringTokenizer) (hm : t.HasMoreTokens = true) :
    t.tokens = t.GetNextToken.1 :: t.GetNextToken.2.tokens := by
  rw [tokens_unfold, if_pos hm]

theorem tokens_of_not_hasMore (t : wxStringTokenizer) (hm : t.HasMoreTokens = false) :
    t.tokens = [] := by
  rw [tokens_unfold, hm]
  rfl

/-- The loop of SplitString appends the tokens to come, and when the bound is
above the measure of the tokenizer it stops because there are no more tokens. -/
theorem SplitStringLoop_spec (fuel : Nat) (dest : wxArrayString) (parts : wxStringTokenizer) :
    (SplitStringLoop fuel dest parts).1 = dest ++ tokensFrom fuel parts ∧
    (parts.measure < fuel → (SplitStringLoop fuel dest parts).2.HasMoreTokens = false) := by
  induction fuel generalizing dest parts with
  | zero =>
    refine ⟨by simp [SplitStringLoop, tokensFrom], fun h => by omega⟩
  | succ n ih =>
    unfold SplitStringLoop tokensFrom
    by_cases hm : parts.HasMoreTokens = true
    · have hlt := GetNextToken_measure parts hm
      simp only [hm, if_true]
      refine ⟨?_, fun h => ?_⟩
      · rw [(ih _ _).1]
        simp
      · exact (ih _ _).2 (by omega)
    · simp only [hm, Bool.false_eq_true, if_false]
      refine ⟨by simp, fun _ => ?_⟩
      simp [hm]

/-! ## TryParse: the paths through the token-consuming overloads -/

/-- The five paths through TryParse(wxPoint&, wxStringTokenizer&). -/
theorem point_tokens_cases (longBits : Nat) (dest : wxPoint) (parts : wxStringTokenizer) :
    (parts.HasMoreTokens = false ∧
      wxPoint.TryParseTokens longBits dest parts = (false, dest, parts)) ∨
    (parts.HasMoreTokens = true ∧ ToLong longBits parts.GetNextToken.1 = none ∧
      wxPoint.TryParseTokens longBits dest parts = (false, dest, parts.GetNextToken.2)) ∨
    (parts.HasMoreTokens = true ∧ (∃ a, ToLong longBits parts.GetNextToken.1 = some a) ∧
      parts.GetNextToken.2.HasMoreTokens = false ∧
      wxPoint.TryParseTokens longBits dest parts = (false, dest, parts.GetNextToken.2)) ∨
    (parts.HasMoreTokens = true ∧ (∃ a, ToLong longBits parts.GetNextToken.1 = some a) ∧
      parts.GetNextToken.2.HasMoreTokens = true ∧
      ToLong longBits parts.GetNextToken.2.GetNextToken.1 = none ∧
      wxPoint.TryParseTokens longBits dest parts
        = (false, dest, parts.GetNextToken.2.GetNextToken.2)) ∨
    (parts.HasMoreTokens = true ∧ parts.GetNextToken.2.HasMoreTokens = true ∧
      ∃ a b, ToLong longBits parts.GetNextToken.1 = some a ∧
        ToLong longBits parts.GetNextToken.2.GetNextToken.1 = some b ∧
        wxPoint.TryParseTokens longBits dest parts
          = (true, { x := toInt a, y := toInt b }, parts.GetNextToken.2.GetNextToken.2)) := by
  unfold wxPoint.TryParseTokens
  cases h0 : parts.HasMoreTokens
  · simp
  · cases h1 : ToLong longBits parts.GetNextToken.1 with
    | none => simp
    | some a =>
      cases h2 : parts.GetNextToken.2.HasMoreTokens
      · simp [h2]
      · cases h3 : ToLong longBits parts.GetNextToken.2.GetNextToken.1 with
        | none => simp [h2, h3]
        | some b => simp [h2, h3]

/-- The five paths through TryParse(wxSize&, wxStringTokenizer&). -/
theorem size_tokens_cases (longBits : Nat) (dest : wxSize) (parts : wxStringTokenizer) :
    (parts.HasMoreTokens = false ∧
      wxSize.TryParseTokens longBits dest parts = (false, dest, parts)) ∨
    (parts.HasMoreTokens = true ∧ ToLong longBits parts.GetNextToken.1 = none ∧
      wxSize.TryParseTokens longBits dest parts = (false, dest, parts.GetNextToken.2)) ∨
    (parts.HasMoreTokens = true ∧ (∃ a, ToLong longBits parts.GetNextToken.1 = some a) ∧
      parts.GetNextToken.2.HasMoreTokens = false ∧
      wxSize.TryParseTokens longBits dest parts = (false, dest, parts.GetNextToken.2)) ∨
    (parts.HasMoreTokens = true ∧ (∃ a, ToLong longBits parts.GetNextToken.1 = some a) ∧
      parts.GetNextToken.2.HasMoreTokens = true ∧
      ToLong longBits parts.GetNextToken.2.GetNextToken.1 = none ∧
      wxSize.TryParseTokens longBits dest parts
        = (false, dest, parts.GetNextToken.2.GetNextToken.2)) ∨
    (parts.HasMoreTokens = true ∧ parts.GetNextToken.2.HasMoreTokens = true ∧
      ∃ a b, ToLong longBits parts.GetNextToken.1 = some a ∧
        ToLong longBits parts.GetNextToken.2.GetNextToken.1 = some b ∧
        wxSize.TryParseTokens longBits dest parts
          = (true, { width := toInt a, height := toInt b },
              parts.GetNextToken.2.GetNextToken.2)) := by
  unfold wxSize.TryParseTokens
  cases h0 : parts.HasMoreTokens
  · simp
  · cases h1 : ToLong longBits parts.GetNextToken.1 with
    | none => simp
    | some a =>
      cases h2 : parts.GetNextToken.2.HasMoreTokens
      · simp [h2]
      · cases h3 : ToLong longBits parts.GetNextToken.2.GetNextToken.1 with
        | none => simp [h2, h3]
        | some b => simp [h2, h3]

/-- A failing TryParse(wxPoint&, wxStringTokenizer&) leaves the destination as
it was. -/
theorem point_tokens_false_dest (longBits : Nat) (dest : wxPoint) (parts : wxStringTokenizer)
    (h : (wxPoint.TryParseTokens longBits dest parts).1 = false) :
    (wxPoint.TryParseTokens longBits dest parts).2.1 = dest := by
  rcases point_tokens_cases longBits dest parts with
    ⟨_, e⟩ | ⟨_, _, e⟩ | ⟨_, _, _, e⟩ | ⟨_, _, _, _, e⟩ | ⟨_, _, a, b, _, _, e⟩ <;>
  rw [e] at h ⊢
  · simp at h

/-- A failing TryParse(wxSize&, wxStringTokenizer&) leaves the destination as
it was. -/
theorem size_tokens_false_dest (longBits : Nat) (dest : wxSize) (parts : wxStringTokenizer)
    (h : (wxSize.TryParseTokens longBits dest parts).1 = false) :
    (wxSize.TryParseTokens longBits dest parts).2.1 = dest := by
  rcases size_tokens_cases longBits dest parts with
    ⟨_, e⟩ | ⟨_, _, e⟩ | ⟨_, _, _, e⟩ | ⟨_, _, _, _, e⟩ | ⟨_, _, a, b, _, _, e⟩ <;>
  rw [e] at h ⊢
  · simp at h

/-- C2. Whenever TryParse(dest, text, defval, separators) returns false, dest
equals defval afterwards, for a wxPoint, a wxSize and a wxRect, whatever the
text, the separators, the default value and the destination on entry; so
"5,abc" leaves a point at its default, and a rectangle whose point part parses
and whose size part fails is left at its default. -/
theorem TryParse_false_leaves_default (longBits : Nat) :
    (∀ (dest : wxPoint) (src : wxString) (defval : wxPoint) (separators : wxString),
      (wxPoint.TryParse longBits dest src defval separators).1 = false →
      (wxPoint.TryParse longBits dest src defval separators).2 = defval) ∧
    (∀ (dest : wxSize) (src : wxString) (defval : wxSize) (separators : wxString),
      (wxSize.TryParse longBits dest src defval separators).1 = false →
      (wxSize.TryParse longBits dest src defval separators).2 = defval) ∧
    (∀ (dest : wxRect) (src : wxString) (defval : wxRect) (separators : wxString),
      (wxRect.TryParse longBits dest src defval separators).1 = false →
      (wxRect.TryParse longBits dest src defval separators).2 = defval) ∧
    (∀ dest defval : wxPoint,
      wxPoint.TryParse 32 dest "5,abc".toList defval ",".toList = (false, defval) ∧
      wxPoint.TryParse 64 dest "5,abc".toList defval ",".toList = (false, defval)) ∧
    (∀ dest defval : wxRect,
      wxRect.TryParse 32 dest "1,2,3,x".toList defval ",".toList = (false, defval) ∧
      wxRect.TryParse 64 dest "1,2,3,x".toList defval ",".toList = (false, defval)) := by
  refine ⟨?_, ?_, ?_, ?_, ?_⟩
  · intro dest src defval separators h
    exact point_tokens_false_dest longBits defval _ h
  · intro dest src defval separators h
    exact size_tokens_false_dest longBits defval _ h
  · intro dest src defval separators h
    unfold wxRect.TryParse wxRect.TryParseAux at h ⊢
    simp only at h ⊢
    split at h
    · rename_i h1
      simp [h1]
    · rename_i h1
      split at h
      · rename_i h2
        simp [h1, h2]
      · simp at h
  · intro dest defval
    exact ⟨rfl, rfl⟩
  · intro dest defval
    exact ⟨rfl, rfl⟩

/-- A use of C2: the text "5,abc" fails to parse as a point and the destination
is the default. -/
theorem TryParse_false_leaves_default_witness :
    (wxPoint.TryParse 64 ⟨9, 9⟩ "5,abc".toList ⟨7, 7⟩ ",".toList).1 = false ∧
    (wxPoint.TryParse 64 ⟨9, 9⟩ "5,abc".toList ⟨7, 7⟩ ",".toList).2 = ⟨7, 7⟩ :=
  ⟨by decide,
   (TryParse_false_leaves_default 64).1 ⟨9, 9⟩ "5,abc".toList ⟨7, 7⟩ ",".toList (by decide)⟩

/-! ## ToLong rejects what is not a number -/

theorem splitSign_subset (l : wxString) (c : Char) (h : c ∈ (splitSign l).2) : c ∈ l := by
  cases l with
  | nil => simp [splitSign] at h
  | cons a r =>
    simp only [splitSign] at h
    split_ifs at h <;> simp_all

/-- The text in which strtol looks for digits is made of characters of the
token. -/
theorem ToLong_body_subset (s : wxString) (c : Char)
    (h : c ∈ (splitSign ((s.takeWhile (fun c => c != NUL)).dropWhile isspace)).2) : c ∈ s := by
  have h1 := splitSign_subset _ c h
  have h2 := (List.dropWhile_sublist isspace).subset h1
  exact (List.takeWhile_sublist _).subset h2

/-- A token without a decimal digit fails integer conversion. -/
theorem ToLong_no_digit (longBits : Nat) (tok : wxString)
    (h : ∀ c ∈ tok, isdigit c = false) : ToLong longBits tok = none := by
  unfold ToLong
  simp only [List.span_eq_take_drop]
  have hnil : List.takeWhile isdigit
      (splitSign ((tok.takeWhile (fun c => c != NUL)).dropWhile isspace)).2 = [] := by
    cases hb : (splitSign ((tok.takeWhile (fun c => c != NUL)).dropWhile isspace)).2 with
    | nil => rfl
    | cons a r =>
      have ha : a ∈ tok := ToLong_body_subset tok a (by rw [hb]; exact List.mem_cons_self _ _)
      simp [List.takeWhile_cons, h a ha]
  rw [hnil]
  rfl

theorem mem_splitSign_of_not_sign (l : wxString) (c : Char) (hc : c ∈ l) (h1 : c ≠ '-')
    (h2 : c ≠ '+') : c ∈ (splitSign l).2 := by
  cases l with
  | nil => simp at hc
  | cons a r =>
    simp only [splitSign]
    rcases List.mem_cons.mp hc with rfl | hr
    · simp [h1, h2]
    · split_ifs <;> simp [hr]

/-- A token fails integer conversion when its C string has a character that is
not a decimal digit, a whitespace character or a sign. -/
theorem ToLong_bad_char (longBits : Nat) (tok : wxString) (c : Char)
    (hc : c ∈ tok.takeWhile (fun c => c != NUL)) (hd : isdigit c = false)
    (hs : isspace c = false) (h1 : c ≠ '-') (h2 : c ≠ '+') : ToLong longBits tok = none := by
  have hsplit := List.takeWhile_append_dropWhile isspace (tok.takeWhile (fun c => c != NUL))
  have hc2 : c ∈ (tok.takeWhile (fun c => c != NUL)).dropWhile isspace := by
    rw [← hsplit] at hc
    rcases List.mem_append.mp hc with h | h
    · have := List.mem_takeWhile_imp h
      rw [hs] at this
      exact absurd this (by decide)
    · exact h
  have hc3 := mem_splitSign_of_not_sign _ c hc2 h1 h2
  have hdrop : List.dropWhile isdigit
      (splitSign ((tok.takeWhile (fun c => c != NUL)).dropWhile isspace)).2 ≠ [] := by
    intro hnil
    have := (List.dropWhile_eq_nil_iff.mp hnil) c hc3
    rw [hd] at this
    exact absurd this (by decide)
  have hemp : (List.dropWhile isdigit
      (splitSign ((tok.takeWhile (fun c => c != NUL)).dropWhile isspace)).2).isEmpty = false := by
    simp [List.isEmpty_iff, hdrop]
  unfold ToLong
  simp only [List.span_eq_take_drop, hemp]
  simp

/-- C3. TryParse for a point returns false if and only if the token list has
fewer than two tokens or one of its first two tokens fails integer conversion,
and returns true in every other case; this holds for the token-consuming
overload on any tokenizer and for the overload that tokenizes a text.  The
empty token, every token without a decimal digit, and every token with a
character (before any NUL) that is not a digit, whitespace or a sign fail the
conversion: they are rejected, not read as zero. -/
theorem TryParse_point_false_iff (longBits : Nat) :
    (∀ (dest : wxPoint) (parts : wxStringTokenizer),
      ((wxPoint.TryParseTokens longBits dest parts).1 = false ↔
        (parts.tokens.length < 2 ∨
          ∃ i, i < 2 ∧ ∃ tok, parts.tokens[i]? = some tok ∧ ToLong longBits tok = none))) ∧
    (∀ (dest : wxPoint) (src : wxString) (defval : wxPoint) (separators : wxString),
      ((wxPoint.TryParse longBits dest src defval separators).1 = false ↔
        ((wxStringTokenizer.mk3 src separators wxTOKEN_DEFAULT).tokens.length < 2 ∨
          ∃ i, i < 2 ∧ ∃ tok,
            (wxStringTokenizer.mk3 src separators wxTOKEN_DEFAULT).tokens[i]? = some tok ∧
            ToLong longBits tok = none))) ∧
    ToLong longBits [] = none ∧
    (∀ tok : wxString, (∀ c ∈ tok, isdigit c = false) → ToLong longBits tok = none) ∧
    (∀ (tok : wxString) (c : Char), c ∈ tok.takeWhile (fun c => c != NUL) →
      isdigit c = false → isspace c = false → c ≠ '-' → c ≠ '+' →
      ToLong longBits tok = none) := by
  have key : ∀ (dest : wxPoint) (parts : wxStringTokenizer),
      ((wxPoint.TryParseTokens longBits dest parts).1 = false ↔
        (parts.tokens.length < 2 ∨
          ∃ i, i < 2 ∧ ∃ tok, parts.tokens[i]? = some tok ∧ ToLong longBits tok = none)) := by
    intro dest parts
    rcases point_tokens_cases longBits dest parts with
      ⟨h0, e⟩ | ⟨h0, h1, e⟩ | ⟨h0, ⟨a, h1⟩, h2, e⟩ | ⟨h0, ⟨a, h1⟩, h2, h3, e⟩ |
      ⟨h0, h2, a, b, h1, h3, e⟩
    · rw [e, tokens_of_not_hasMore parts h0]
      simp
    · rw [e, tokens_of_hasMore parts h0]
      simp only [true_iff]
      exact Or.inr ⟨0, by omega, _, by simp, h1⟩
    · rw [e, tokens_of_hasMore parts h0, tokens_of_not_hasMore _ h2]
      simp
    · rw [e, tokens_of_hasMore parts h0, tokens_of_hasMore _ h2]
      simp only [true_iff]
      exact Or.inr ⟨1, by omega, _, by simp, h3⟩
    · rw [e, tokens_of_hasMore parts h0, tokens_of_hasMore _ h2]
      simp only [Bool.true_eq_false, false_iff, not_or, not_lt, not_exists, not_and]
      refine ⟨by simp, ?_⟩
      intro i hi tok htok
      have hcases : i = 0 ∨ i = 1 := by omega
      rcases hcases with rfl | rfl
      · simp at htok
        rw [← htok, h1]
        simp
      · simp at htok
        rw [← htok, h3]
        simp
  refine ⟨key, ?_, ?_, ToLong_no_digit longBits, ToLong_bad_char longBits⟩
  · intro dest src defval separators
    exact key defval _
  · exact ToLong_no_digit longBits [] (by simp)

theorem isdigit_digitChar : ∀ d, d < 10 → isdigit (digitChar d) = true := by decide

theorem digitValue_digitChar : ∀ d, d < 10 → digitValue (digitChar d) = d := by decide

theorem natToDec_isdigit (fuel n : Nat) : ∀ c ∈ natToDec fuel n, isdigit c = true := by
  induction fuel generalizing n with
  | zero =>
    intro c hc
    simp only [natToDec, List.mem_singleton] at hc
    rw [hc]
    exact isdigit_digitChar _ (Nat.mod_lt _ (by omega))
  | succ f ih =>
    intro c hc
    unfold natToDec at hc
    split at hc
    · rename_i hlt
      simp only [List.mem_singleton] at hc
      rw [hc]
      exact isdigit_digitChar _ hlt
    · rcases List.mem_append.mp hc with h | h
      · exact ih _ c h
      · simp only [List.mem_singleton] at h
        rw [h]
        exact isdigit_digitChar _ (Nat.mod_lt _ (by omega))

theorem natToDec_ne_nil (fuel n : Nat) : natToDec fuel n ≠ [] := by
  cases fuel with
  | zero => simp [natToDec]
  | succ f =>
    unfold natToDec
    split <;> simp

theorem digitsValue_append_singleton (l : List Char) (c : Char) :
    digitsValue (l ++ [c]) = 10 * digitsValue l + digitValue c := by
  simp [digitsValue, List.foldl_append]

/-- The decimal digits written for a natural number have that number as their
value, when the bound on the number of digits is not reached. -/
theorem digitsValue_natToDec (fuel n : Nat) (h : n ≤ fuel) :
    digitsValue (natToDec fuel n) = n := by
  induction fuel generalizing n with
  | zero =>
    have hn : n = 0 := by omega
    subst hn
    decide
  | succ f ih =>
    unfold natToDec
    split
    · rename_i hlt
      simp only [digitsValue, List.foldl_cons, List.foldl_nil]
      rw [digitValue_digitChar n hlt]
      omega
    · rename_i hge
      rw [digitsValue_append_singleton, ih (n / 10) (by omega),
        digitValue_digitChar _ (Nat.mod_lt _ (by omega))]
      omega

theorem isdigit_facts (c : Char) (h : isdigit c = true) :
    (c != NUL) = true ∧ isspace c = false ∧ c ≠ '-' ∧ c ≠ '+' ∧ c ≠ ',' := by
  simp only [isdigit, Bool.and_eq_true, decide_eq_true_eq] at h
  refine ⟨?_, ?_, ?_, ?_, ?_⟩
  · simp only [bne_iff_ne, ne_eq]
    rintro rfl
    simp [NUL] at h
  · simp only [isspace, Bool.or_eq_false_iff, decide_eq_false_iff_not, Bool.and_eq_false_iff]
    omega
  · rintro rfl
    simp at h
  · rintro rfl
    simp at h
  · rintro rfl
    simp at h

/-- ToLong reads a non-empty run of decimal digits as its value, when the value
fits a long. -/
theorem ToLong_digits (longBits : Nat) (ds : wxString) (hne : ds ≠ [])
    (hd : ∀ c ∈ ds, isdigit c = true) (hr : inLongRange longBits (digitsValue ds) = true) :
    ToLong longBits ds = some (digitsValue ds : Int) := by
  obtain ⟨c, r, rfl⟩ := List.exists_cons_of_ne_nil hne
  have hc := isdigit_facts c (hd c (List.mem_cons_self _ _))
  have h1 : List.takeWhile (fun c => c != NUL) (c :: r) = c :: r :=
    List.takeWhile_eq_self_iff.mpr (fun x hx => (isdigit_facts x (hd x hx)).1)
  have h2 : List.dropWhile isspace (c :: r) = c :: r := by
    simp [List.dropWhile_cons, hc.2.1]
  have h3 : splitSign (c :: r) = (false, c :: r) := by
    simp [splitSign, hc.2.2.1, hc.2.2.2.1]
  have h4 : List.takeWhile isdigit (c :: r) = c :: r := List.takeWhile_eq_self_iff.mpr hd
  have h5 : List.dropWhile isdigit (c :: r) = [] := List.dropWhile_eq_nil_iff.mpr hd
  unfold ToLong
  simp only [List.span_eq_take_drop, h1, h2, h3, h4, h5]
  simp [hr]

/-- ToLong reads a minus sign and a non-empty run of decimal digits as the
negated value, when that fits a long. -/
theorem ToLong_neg_digits (longBits : Nat) (ds : wxString) (hne : ds ≠ [])
    (hd : ∀ c ∈ ds, isdigit c = true)
    (hr : inLongRange longBits (-(digitsValue ds : Int)) = true) :
    ToLong longBits ('-' :: ds) = some (-(digitsValue ds : Int)) := by
  have h1 : List.takeWhile (fun c => c != NUL) ('-' :: ds) = '-' :: ds := by
    apply List.takeWhile_eq_self_iff.mpr
    intro x hx
    rcases List.mem_cons.mp hx with rfl | hx
    · decide
    · exact (isdigit_facts x (hd x hx)).1
  have h2 : List.dropWhile isspace ('-' :: ds) = '-' :: ds := by
    rw [List.dropWhile_cons]
    rfl
  have h3 : splitSign ('-' :: ds) = (true, ds) := by
    simp [splitSign]
  have h4 : List.takeWhile isdigit ds = ds := List.takeWhile_eq_self_iff.mpr hd
  have h5 : List.dropWhile isdigit ds = [] := List.dropWhile_eq_nil_iff.mpr hd
  unfold ToLong
  simp only [List.span_eq_take_drop, h1, h2, h3, h4, h5]
  simp [hr, hne]

/-- ToLong reads back the text written for an int that fits a long. -/
theorem ToLong_formatInt (longBits : Nat) (i : Int) (hr : inLongRange longBits i = true) :
    ToLong longBits (formatInt i) = some i := by
  unfold formatInt
  have hv := digitsValue_natToDec i.natAbs i.natAbs (le_refl _)
  split
  · rename_i hneg
    have hi : -(digitsValue (natToDec i.natAbs i.natAbs) : Int) = i := by
      rw [hv]
      omega
    rw [ToLong_neg_digits longBits _ (natToDec_ne_nil _ _) (natToDec_isdigit _ _)
      (by rw [hi]; exact hr), hi]
  · rename_i hpos
    have hi : (digitsValue (natToDec i.natAbs i.natAbs) : Int) = i := by
      rw [hv]
      omega
    rw [ToLong_digits longBits _ (natToDec_ne_nil _ _) (natToDec_isdigit _ _)
      (by rw [hi]; exact hr), hi]

theorem formatInt_ne_nil (i : Int) : formatInt i ≠ [] := by
  unfold formatInt
  split
  · simp
  · exact natToDec_ne_nil _ _

/-- The text written for an int has no comma in it. -/
theorem formatInt_no_comma (i : Int) : ∀ c ∈ formatInt i, c ≠ ',' := by
  intro c hc
  unfold formatInt at hc
  split at hc
  · rcases List.mem_cons.mp hc with rfl | h
    · decide
    · exact (isdigit_facts c (natToDec_isdigit _ _ c h)).2.2.2.2
  · exact (isdigit_facts c (natToDec_isdigit _ _ c hc)).2.2.2.2

theorem inLongRange_of_inIntRange (longBits : Nat) (h : 32 ≤ longBits) (i : Int)
    (hi : inIntRange i = true) : inLongRange longBits i = true := by
  simp only [inIntRange, Bool.and_eq_true, decide_eq_true_eq] at hi
  simp only [inLongRange, Bool.and_eq_true, decide_eq_true_eq]
  have hpow : (2 : Int) ^ 32 ≤ 2 ^ longBits := pow_le_pow_right₀ (by norm_num) h
  norm_num at hi hpow
  constructor <;> omega

theorem toInt_of_inIntRange (i : Int) (hi : inIntRange i = true) : toInt i = i := by
  simp only [inIntRange, Bool.and_eq_true, decide_eq_true_eq] at hi
  unfold toInt
  norm_num at hi ⊢
  omega

theorem GetNextToken_eq_takeToken (t : wxStringTokenizer) (hm : t.HasMoreTokens = true)
    (hmode : t.m_mode ≠ wxTOKEN_STRTOK) : t.GetNextToken = t.takeToken := by
  unfold wxStringTokenizer.GetNextToken wxStringTokenizer.GetNextTokenLoop
  simp [hm, hmode]

theorem hasMore_of_any (t : wxStringTokenizer) (hmode : t.m_mode ≠ wxTOKEN_INVALID)
    (h : t.m_rest.any (fun c => !isDelim t.m_delims c) = true) : t.HasMoreTokens = true := by
  unfold wxStringTokenizer.HasMoreTokens
  simp only [hmode, if_false, h, if_true]

theorem span_append_delim (p : Char → Bool) (a b : List Char) (d : Char)
    (ha : ∀ c ∈ a, p c = true) (hd : p d = false) :
    (a ++ d :: b).span p = (a, d :: b) := by
  rw [List.span_eq_take_drop, List.takeWhile_append_of_pos ha, List.dropWhile_append_of_pos ha]
  simp [List.takeWhile_cons, List.dropWhile_cons, hd]

theorem span_all (p : Char → Bool) (a : List Char) (ha : ∀ c ∈ a, p c = true) :
    a.span p = (a, []) := by
  rw [List.span_eq_take_drop, List.takeWhile_eq_self_iff.mpr ha, List.dropWhile_eq_nil_iff.mpr ha]

theorem any_of_ne_nil (p : Char → Bool) (a b : List Char) (hne : a ≠ [])
    (ha : ∀ c ∈ a, p c = true) : (a ++ b).any p = true := by
  obtain ⟨c, r, rfl⟩ := List.exists_cons_of_ne_nil hne
  simp [ha c (List.mem_cons_self _ _)]

/-- The tokenizer over two comma-free, non-empty texts joined by a comma, with
the comma as the only delimiter, returns the two texts as its first tokens. -/
theorem tokenizer_two_fields (a b : wxString) (hane : a ≠ []) (hbne : b ≠ [])
    (ha : ∀ c ∈ a, c ≠ ',') (hb : ∀ c ∈ b, c ≠ ',') :
    let t := wxStringTokenizer.mk3 (a ++ ',' :: b) [','] wxTOKEN_DEFAULT
    t.HasMoreTokens = true ∧ t.GetNextToken.1 = a ∧
    t.GetNextToken.2.HasMoreTokens = true ∧ t.GetNextToken.2.GetNextToken.1 = b := by
  intro t
  have hmode : t.m_mode = wxTOKEN_RET_EMPTY := rfl
  have hdel : t.m_delims = [','] := rfl
  have hrest : t.m_rest = a ++ ',' :: b := rfl
  have hpa : ∀ c ∈ a, (fun c => !isDelim [','] c) c = true := by
    intro c hc
    simp [isDelim, ha c hc]
  have hpb : ∀ c ∈ b, (fun c => !isDelim [','] c) c = true := by
    intro c hc
    simp [isDelim, hb c hc]
  have hpd : (fun c => !isDelim [','] c) ',' = false := by decide
  have hm0 : t.HasMoreTokens = true := by
    apply hasMore_of_any t (by rw [hmode]; decide)
    rw [hdel, hrest]
    exact any_of_ne_nil _ a _ hane hpa
  have hg0 : t.GetNextToken = t.takeToken :=
    GetNextToken_eq_takeToken t hm0 (by rw [hmode]; decide)
  have htake : t.takeToken =
      (a, { t with m_rest := b, m_pos := t.m_pos + a.length + 1, m_lastDelim := ',' }) := by
    unfold wxStringTokenizer.takeToken
    rw [hdel, hrest, span_append_delim _ a b ',' hpa hpd]
    simp [hmode]
  have hm1 : t.GetNextToken.2.HasMoreTokens = true := by
    rw [hg0, htake]
    apply hasMore_of_any _ (by simp only [hmode]; decide)
    simp only [hdel]
    have := any_of_ne_nil _ b [] hbne hpb
    simpa using this
  refine ⟨hm0, ?_, hm1, ?_⟩
  · rw [hg0, htake]
  · rw [GetNextToken_eq_takeToken _ hm1 (by rw [hg0, htake]; simp only [hmode]; decide)]
    rw [hg0, htake]
    unfold wxStringTokenizer.takeToken
    simp only [hdel]
    rw [span_all _ b hpb]

/-- C1. Round trip for points: for all integers x and y in the range of int,
every destination and every default point, TryParse on the text that ToString
gives for the point (x, y) with the separator "," returns true and leaves the
destination equal to (x, y), negative coordinates included.  The width of long
is at least that of int. -/
theorem point_round_trip (longBits : Nat) (hw : 32 ≤ longBits) (x y : Int)
    (hx : inIntRange x = true) (hy : inIntRange y = true) (dest d : wxPoint) :
    wxPoint.TryParse longBits dest (wxPoint.ToString { x := x, y := y } ",".toList) d ",".toList
      = (true, { x := x, y := y }) := by
  have htext : wxPoint.ToString { x := x, y := y } ",".toList
      = formatInt x ++ ',' :: formatInt y := by
    simp [wxPoint.ToString]
  have hsep : ",".toList = [','] := rfl
  rw [htext, hsep]
  obtain ⟨h0, h1, h2, h3⟩ := tokenizer_two_fields (formatInt x) (formatInt y)
    (formatInt_ne_nil x) (formatInt_ne_nil y) (formatInt_no_comma x) (formatInt_no_comma y)
  have hlx := ToLong_formatInt longBits x (inLongRange_of_inIntRange longBits hw x hx)
  have hly := ToLong_formatInt longBits y (inLongRange_of_inIntRange longBits hw y hy)
  unfold wxPoint.TryParse wxPoint.TryParseTokens
  simp only [h0, h1, h2, h3, hlx, hly, Bool.not_true, Bool.false_eq_true, if_false,
    toInt_of_inIntRange x hx, toInt_of_inIntRange y hy]

/-- A use of C1: the point (-5, 7) with a 64-bit long. -/
theorem point_round_trip_witness :
    wxPoint.TryParse 64 { x := 0, y := 0 } (wxPoint.ToString { x := -5, y := 7 } ",".toList)
      { x := -1, y := -1 } ",".toList = (true, { x := -5, y := 7 }) :=
  point_round_trip 64 (by decide) (-5) 7 (by decide) (by decide) { x := 0, y := 0 }
    { x := -1, y := -1 }

/-! ## Parse, SplitString and ToString -/

/-- C4. The call `TryParse(retval, src, separators)` in the body of Parse has no
overload to go to when T is wxPoint, wxSize or wxRect, whatever the text, the
separators and the default arguments: its third argument is a text in the place
of `defval`.  So Parse cannot be instantiated and raises no ParseError on
"notanumber,5"; the call with four arguments, with a default point in the
third place, is the one that returns false on that text and leaves the default
in the destination. -/
theorem Parse_call_has_no_overload (dflt : TryParseDefaults) (longBits : Nat) :
    (∀ (retval : wxPoint) (src separators : wxString),
      TryParseCall dflt longBits [Arg.point retval, Arg.text src, Arg.text separators] = none) ∧
    (∀ (retval : wxSize) (src separators : wxString),
      TryParseCall dflt longBits [Arg.size retval, Arg.text src, Arg.text separators] = none) ∧
    (∀ (retval : wxRect) (src separators : wxString),
      TryParseCall dflt longBits [Arg.rect retval, Arg.text src, Arg.text separators] = none) ∧
    (∀ src separators : wxString,
      (Parse dflt longBits src separators : Option (Except ParseError wxPoint)) = none ∧
      (Parse dflt longBits src separators : Option (Except ParseError wxSize)) = none ∧
      (Parse dflt longBits src separators : Option (Except ParseError wxRect)) = none) ∧
    (Parse dflt longBits "notanumber,5".toList ",".toList
      : Option (Except ParseError wxPoint)) = none ∧
    (∀ retval defval : wxPoint,
      TryParseCall dflt longBits
          [Arg.point retval, Arg.text "notanumber,5".toList, Arg.point defval,
            Arg.text ",".toList]
        = some (false, Arg.point defval)) := by
  refine ⟨?_, ?_, ?_, ?_, ?_, ?_⟩
  · intro retval src separators
    rfl
  · intro retval src separators
    rfl
  · intro retval src separators
    rfl
  · intro src separators
    exact ⟨rfl, rfl, rfl⟩
  · rfl
  · intro retval defval
    rfl

/-- C7. SplitString is additive: after the call the list is the old list
followed by the tokens of the text in tokenizer order, for every old list,
text, delimiter set and mode, and the loop stops because the tokenizer has no
more tokens.  Two calls in a row append the tokens of the first text and then
those of the second, so splitting "a,b" and then "c,d" into an empty list
gives ["a", "b", "c", "d"]. -/
theorem SplitString_additive (dest : wxArrayString) (src delims : wxString)
    (mode : wxStringTokenizerMode) :
    SplitString dest src delims mode = dest ++ (wxStringTokenizer.mk3 src delims mode).tokens ∧
    (SplitStringRun dest src delims mode).2.HasMoreTokens = false ∧
    (∀ (src2 delims2 : wxString) (mode2 : wxStringTokenizerMode),
      SplitString (SplitString dest src delims mode) src2 delims2 mode2
        = dest ++ (wxStringTokenizer.mk3 src delims mode).tokens
            ++ (wxStringTokenizer.mk3 src2 delims2 mode2).tokens) ∧
    SplitString (SplitString [] "a,b".toList ",".toList wxTOKEN_RET_EMPTY_ALL) "c,d".toList
        ",".toList wxTOKEN_RET_EMPTY_ALL
      = ["a".toList, "b".toList, "c".toList, "d".toList] ∧
    SplitString (SplitString [] "a,b".toList ",".toList wxTOKEN_DEFAULT) "c,d".toList
        ",".toList wxTOKEN_DEFAULT
      = ["a".toList, "b".toList, "c".toList, "d".toList] := by
  have key : ∀ (dest : wxArrayString) (src delims : wxString) (mode : wxStringTokenizerMode),
      SplitString dest src delims mode
        = dest ++ (wxStringTokenizer.mk3 src delims mode).tokens := by
    intro dest src delims mode
    unfold SplitString SplitStringRun wxStringTokenizer.tokens
    exact (SplitStringLoop_spec _ dest _).1
  refine ⟨key dest src delims mode, ?_, ?_, by decide, by decide⟩
  · unfold SplitStringRun
    exact (SplitStringLoop_spec _ dest _).2 (measure_lt_bound _)
  · intro src2 delims2 mode2
    rw [key, key]

/-- C9. For every rectangle and separator, ToString gives the decimal texts of
x, y, width and height in that order with the separator between them, which is
the text of the origin, the separator and the text of the size; the same holds
for the rectangle made of a given origin and size. -/
theorem ToString_rect (r : wxRect) (separator : wxString) :
    r.ToString separator
      = formatInt r.x ++ separator ++ formatInt r.y ++ separator ++ formatInt r.width
          ++ separator ++ formatInt r.height ∧
    r.ToString separator
      = r.GetLeftTop.ToString separator ++ separator ++ r.GetSize.ToString separator ∧
    (∀ (origin : wxPoint) (size : wxSize),
      (wxRect.ofPointSize origin size).ToString separator
        = origin.ToString separator ++ separator ++ size.ToString separator) ∧
    wxRect.ToString { x := 32, y := 64, width := 128, height := 5 } ",".toList
      = "32,64,128,5".toList := by
  refine ⟨?_, rfl, fun origin size => rfl, by decide⟩
  simp [wxRect.ToString, wxPoint.ToString, wxSize.ToString, wxRect.GetLeftTop, wxRect.GetSize,
    wxSize.GetWidth, wxSize.GetHeight]

/-! ## pxParseAssignmentString -/

theorem StartsWith_iff (s start : wxString) :
    StartsWith s start = true ↔ ∃ rest, s = start ++ rest := by
  unfold StartsWith
  rw [List.isPrefixOf_iff_prefix]
  constructor
  · rintro ⟨r, hr⟩
    exact ⟨r, hr.symm⟩
  · rintro ⟨r, hr⟩
    exact ⟨r, hr.symm⟩

/-- Trimming at the right and then at the left gives the trimmed text of the
spec. -/
theorem Trim_both_isTrimOf (s : wxString) : IsTrimOf (Trim (Trim s true) false) s := by
  simp only [Trim, if_true, Bool.false_eq_true, if_false]
  have hrev := List.takeWhile_append_dropWhile isspace s.reverse
  have hs : s = (s.reverse.dropWhile isspace).reverse ++ (s.reverse.takeWhile isspace).reverse := by
    have := congrArg List.reverse hrev
    simp only [List.reverse_append, List.reverse_reverse] at this
    exact this.symm
  have hr := List.takeWhile_append_dropWhile isspace (s.reverse.dropWhile isspace).reverse
  refine ⟨(s.reverse.dropWhile isspace).reverse.takeWhile isspace,
    (s.reverse.takeWhile isspace).reverse, ?_, ?_, ?_, ?_, ?_⟩
  · rw [hr]
    exact hs
  · intro c hc
    exact List.mem_takeWhile_imp hc
  · intro c hc
    exact List.mem_takeWhile_imp (List.mem_reverse.mp hc)
  · intro c hc
    have := List.head?_dropWhile_not isspace (s.reverse.dropWhile isspace).reverse
    rw [hc] at this
    exact this
  · intro c hc
    have hne : (s.reverse.dropWhile isspace).reverse.dropWhile isspace ≠ [] := by
      intro hnil
      rw [hnil] at hc
      simp at hc
    have hlast : (s.reverse.dropWhile isspace).reverse.getLast? = some c := by
      rw [← hr, List.getLast?_append_of_ne_nil _ hne]
      exact hc
    rw [List.getLast?_reverse] at hlast
    have := List.head?_dropWhile_not isspace s.reverse
    rw [hlast] at this
    exact this

theorem BeforeFirst_split (before after : wxString) (ch : Char) (h : ch ∉ before) :
    BeforeFirst (before ++ ch :: after) ch = before ∧
    AfterFirst (before ++ ch :: after) ch = after := by
  have hp : ∀ c ∈ before, (fun c => c != ch) c = true := by
    intro c hc
    simp only [bne_iff_ne, ne_eq]
    rintro rfl
    exact h hc
  unfold BeforeFirst AfterFirst
  rw [List.takeWhile_append_of_pos hp, List.dropWhile_append_of_pos hp]
  simp [List.takeWhile_cons, List.dropWhile_cons]

theorem BeforeFirst_absent (s : wxString) (ch : Char) (h : ch ∉ s) :
    BeforeFirst s ch = s ∧ AfterFirst s ch = [] := by
  have hp : ∀ c ∈ s, (fun c => c != ch) c = true := by
    intro c hc
    simp only [bne_iff_ne, ne_eq]
    rintro rfl
    exact h hc
  unfold BeforeFirst AfterFirst
  rw [List.takeWhile_eq_self_iff.mpr hp, List.dropWhile_eq_nil_iff.mpr hp]
  simp

/-- C5. The function pxParseAssignmentString returns false if and only if the
text starts with "--", "//" or ";", and the two outputs are then left as they
were; the test is made on the untrimmed text, so a line with whitespace before
the marker is not a comment; for every other text, the empty one included, it
returns true. -/
theorem pxParseAssignmentString_false_iff (src ldest rdest : wxString) :
    ((pxParseAssignmentString src ldest rdest).1 = false ↔
      ((∃ rest, src = "--".toList ++ rest) ∨ (∃ rest, src = "//".toList ++ rest) ∨
        (∃ rest, src = ";".toList ++ rest))) ∧
    ((pxParseAssignmentString src ldest rdest).1 = true ↔
      ¬ ((∃ rest, src = "--".toList ++ rest) ∨ (∃ rest, src = "//".toList ++ rest) ∨
        (∃ rest, src = ";".toList ++ rest))) ∧
    ((pxParseAssignmentString src ldest rdest).1 = false →
      (pxParseAssignmentString src ldest rdest).2 = (ldest, rdest)) ∧
    (pxParseAssignmentString [] ldest rdest).1 = true ∧
    (pxParseAssignmentString " ; x".toList ldest rdest).1 = true ∧
    (pxParseAssignmentString "  -- x".toList ldest rdest).1 = true ∧
    (pxParseAssignmentString "-- comment".toList ldest rdest).1 = false ∧
    (pxParseAssignmentString "key = value".toList ldest rdest).1 = true := by
  have key : ((pxParseAssignmentString src ldest rdest).1 = false ↔
      ((∃ rest, src = "--".toList ++ rest) ∨ (∃ rest, src = "//".toList ++ rest) ∨
        (∃ rest, src = ";".toList ++ rest))) := by
    rw [← StartsWith_iff, ← StartsWith_iff, ← StartsWith_iff]
    unfold pxParseAssignmentString
    split
    · rename_i h
      simp only [Bool.or_eq_true] at h
      simp only [true_iff]
      tauto
    · rename_i h
      simp only [Bool.or_eq_true, not_or] at h
      simp only [Bool.true_eq_false, false_iff]
      tauto
  refine ⟨key, ?_, ?_, rfl, rfl, rfl, rfl, rfl⟩
  · rw [← key]
    simp
  · intro h
    unfold pxParseAssignmentString at h ⊢
    split
    · rfl
    · rename_i hn
      rw [if_neg hn] at h
      simp at h

/-- C6. For every non-comment text, pxParseAssignmentString sets the left output
to the trimmed text before the first '=' and the right output to the trimmed
text after the first '=' (later '=' characters stay in the right output, and
whitespace inside either side is kept); when the text has no '=', the left
output is the whole trimmed text and the right output is empty.  So
"key = value" gives ("key", "value") and "justtext" gives ("justtext", ""). -/
theorem pxParseAssignmentString_sides :
    (∀ src ldest rdest : wxString, (pxParseAssignmentString src ldest rdest).1 = true →
      (∀ before after : wxString, '=' ∉ before → src = before ++ '=' :: after →
        IsTrimOf (pxParseAssignmentString src ldest rdest).2.1 before ∧
        IsTrimOf (pxParseAssignmentString src ldest rdest).2.2 after) ∧
      ('=' ∉ src →
        IsTrimOf (pxParseAssignmentString src ldest rdest).2.1 src ∧
        (pxParseAssignmentString src ldest rdest).2.2 = [])) ∧
    (∀ ldest rdest : wxString,
      pxParseAssignmentString "key = value".toList ldest rdest
        = (true, "key".toList, "value".toList) ∧
      pxParseAssignmentString "justtext".toList ldest rdest = (true, "justtext".toList, []) ∧
      pxParseAssignmentString " a b = c d = e ".toList ldest rdest
        = (true, "a b".toList, "c d = e".toList)) := by
  refine ⟨?_, fun ldest rdest => ⟨rfl, rfl, rfl⟩⟩
  intro src ldest rdest h
  have hres : (pxParseAssignmentString src ldest rdest).2
      = (Trim (Trim (BeforeFirst src '=') true) false,
          Trim (Trim (AfterFirst src '=') true) false) := by
    unfold pxParseAssignmentString at h ⊢
    split
    · rename_i hc
      rw [if_pos hc] at h
      simp at h
    · rfl
  rw [hres]
  refine ⟨?_, ?_⟩
  · intro before after hb hsrc
    obtain ⟨h1, h2⟩ := BeforeFirst_split before after '=' hb
    rw [hsrc, h1, h2]
    exact ⟨Trim_both_isTrimOf before, Trim_both_isTrimOf after⟩
  · intro hno
    obtain ⟨h1, h2⟩ := BeforeFirst_absent src '=' hno
    rw [h1, h2]
    exact ⟨Trim_both_isTrimOf src, rfl⟩

/-- A use of C6: the text "a=b" is not a comment and splits at its only '='. -/
theorem pxParseAssignmentString_sides_witness :
    IsTrimOf (pxParseAssignmentString "a=b".toList [] []).2.1 "a".toList ∧
    IsTrimOf (pxParseAssignmentString "a=b".toList [] []).2.2 "b".toList :=
  (pxParseAssignmentString_sides.1 "a=b".toList [] [] (by decide)).1 "a".toList "b".toList
    (by decide) (by decide)

/-! ## The resource cache holder -/

theorem GetResourceCache_first (app : Pcsx2App) (h0 : app.m_Resources = none)
    (hl : app.m_mtx_Resources = false) :
    app.GetResourceCache = some ({ id := app.constructed },
      { m_Resources := some { id := app.constructed }, m_mtx_Resources := false,
        constructed := app.constructed + 1 }) := by
  unfold Pcsx2App.GetResourceCache
  simp [h0, hl]

theorem GetResourceCache_later (app : Pcsx2App) (res : pxAppResources)
    (h0 : app.m_Resources = some res) (hl : app.m_mtx_Resources = false) :
    app.GetResourceCache = some (res, app) := by
  unfold Pcsx2App.GetResourceCache
  cases app with
  | mk r m c =>
    simp only at h0 hl
    subst h0 hl
    simp

theorem callSeries_later (n : Nat) (app : Pcsx2App) (res : pxAppResources)
    (h0 : app.m_Resources = some res) (hl : app.m_mtx_Resources = false) :
    app.callSeries n = some (List.replicate n res, app) := by
  induction n with
  | zero => rfl
  | succ k ih =>
    unfold Pcsx2App.callSeries
    rw [GetResourceCache_later app res h0 hl]
    simp only
    rw [ih]
    rfl

/-- C10. Over a sequential series of GetResourceCache calls on an application
that starts with no cache (and a free mutex), the cache is constructed exactly
once, by the first call: every call of the series returns that one instance,
and after any number of calls the held instance is the same and the count of
constructed objects has grown by one.  A call on an application that already
holds an instance constructs nothing, leaves the application unchanged and
returns the held instance. -/
theorem GetResourceCache_constructs_once (app : Pcsx2App) (h0 : app.m_Resources = none)
    (hl : app.m_mtx_Resources = false) :
    (∀ n : Nat, app.callSeries (n + 1) = some (List.replicate (n + 1) { id := app.constructed },
      { m_Resources := some { id := app.constructed }, m_mtx_Resources := false,
        constructed := app.constructed + 1 })) ∧
    (∀ (held : Pcsx2App) (res : pxAppResources), held.m_Resources = some res →
      held.m_mtx_Resources = false → held.GetResourceCache = some (res, held)) := by
  refine ⟨?_, GetResourceCache_later⟩
  intro n
  unfold Pcsx2App.callSeries
  rw [GetResourceCache_first app h0 hl]
  simp only
  rw [callSeries_later n _ { id := app.constructed } rfl rfl]
  rfl

/-- A use of C10: three calls in a row on a fresh application. -/
theorem GetResourceCache_constructs_once_witness :
    Pcsx2App.callSeries 3 { m_Resources := none, m_mtx_Resources := false, constructed := 0 }
      = some ([{ id := 0 }, { id := 0 }, { id := 0 }],
          { m_Resources := some { id := 0 }, m_mtx_Resources := false, constructed := 1 }) :=
  (GetResourceCache_constructs_once
    { m_Resources := none, m_mtx_Resources := false, constructed := 0 } rfl rfl).1 2

/-! ## ParsedAssignmentString -/

/-- C12. The IsComment member that the constructor of ParsedAssignmentString
sets is the result of pxParseAssignmentString, so it is false on a comment line
and true on every other line: on "-- comment", "// x" and ";x" it is false, on
"key = value" it is true, and for every text it is true exactly when the text
does not start with "--", "//" or ";". -/
theorem ParsedAssignmentString_IsComment_inverted :
    (ParsedAssignmentString.ctor "-- comment".toList).IsComment = false ∧
    (ParsedAssignmentString.ctor "// x".toList).IsComment = false ∧
    (ParsedAssignmentString.ctor ";x".toList).IsComment = false ∧
    ParsedAssignmentString.ctor "key = value".toList
      = { lvalue := "key".toList, rvalue := "value".toList, IsComment := true } ∧
    (∀ src : wxString, ((ParsedAssignmentString.ctor src).IsComment = true ↔
      ¬ ((∃ rest, src = "--".toList ++ rest) ∨ (∃ rest, src = "//".toList ++ rest) ∨
        (∃ rest, src = ";".toList ++ rest)))) := by
  refine ⟨by decide, by decide, by decide, by decide, ?_⟩
  intro src
  rw [← StartsWith_iff, ← StartsWith_iff, ← StartsWith_iff]
  unfold ParsedAssignmentString.ctor pxParseAssignmentString
  split
  · rename_i h
    simp only [Bool.or_eq_true] at h
    simp only [Bool.false_eq_true, false_iff, not_not]
    tauto
  · rename_i h
    simp only [Bool.or_eq_true, not_or] at h
    simp only [true_iff]
    tauto

/-! ## GetResourceCache called by several threads -/

theorem set_cases (l : List ThreadPc) (i : Nat) (a : ThreadPc) (j : Nat) (pc : ThreadPc)
    (h : (l.set i a)[j]? = some pc) : (j = i ∧ pc = a) ∨ (j ≠ i ∧ l[j]? = some pc) := by
  by_cases hji : i = j
  · subst hji
    left
    rw [List.getElem?_set_self'] at h
    cases hl : l[i]? with
    | none => rw [hl] at h; simp at h
    | some b =>
      rw [hl] at h
      simp at h
      exact ⟨rfl, h.symm⟩
  · right
    rw [List.getElem?_set_ne hji] at h
    exact ⟨fun e => hji e.symm, h⟩

theorem set_self (l : List ThreadPc) (i : Nat) (a b : ThreadPc) (hb : l[i]? = some b) :
    (l.set i a)[i]? = some a := by
  rw [List.getElem?_set_self', hb]
  rfl

/-- A thread that moves inside the scoped lock leaves the mutex locked by one
thread. -/
theorem lockedByOne_inside (mtx : Bool) (l : List ThreadPc) (i : Nat) (a b : ThreadPc)
    (h : lockedByOne mtx l) (hb : l[i]? = some b) (hbc : b.crit = true) (hac : a.crit = true) :
    lockedByOne mtx (l.set i a) := by
  obtain ⟨h1, h2, h3⟩ := h
  have hm : mtx = true := by
    cases mtx with
    | true => rfl
    | false =>
      have := h1 rfl i b hb
      rw [hbc] at this
      exact absurd this (by decide)
  have honly : ∀ (j : Nat) (pc : ThreadPc), (l.set i a)[j]? = some pc → pc.crit = true → j = i := by
    intro j pc hj hc
    rcases set_cases l i a j pc hj with ⟨e, _⟩ | ⟨_, hold⟩
    · exact e
    · exact h3 j i pc b hold hb hc hbc
  refine ⟨?_, ?_, ?_⟩
  · intro hf
    rw [hm] at hf
    exact absurd hf (by decide)
  · intro _
    exact ⟨i, a, set_self l i a b hb, hac⟩
  · intro j k pj pk hj hk hcj hck
    rw [honly j pj hj hcj, honly k pk hk hck]

/-- A thread that takes the free mutex locks it alone. -/
theorem lockedByOne_acquire (l : List ThreadPc) (i : Nat) (a b : ThreadPc)
    (h : lockedByOne false l) (hb : l[i]? = some b) (hac : a.crit = true) :
    lockedByOne true (l.set i a) := by
  obtain ⟨h1, _, _⟩ := h
  have honly : ∀ (j : Nat) (pc : ThreadPc), (l.set i a)[j]? = some pc → pc.crit = true → j = i := by
    intro j pc hj hc
    rcases set_cases l i a j pc hj with ⟨e, _⟩ | ⟨_, hold⟩
    · exact e
    · have := h1 rfl j pc hold
      rw [hc] at this
      exact absurd this (by decide)
  refine ⟨?_, ?_, ?_⟩
  · intro hf
    exact absurd hf (by decide)
  · intro _
    exact ⟨i, a, set_self l i a b hb, hac⟩
  · intro j k pj pk hj hk hcj hck
    rw [honly j pj hj hcj, honly k pk hk hck]

/-- The thread that releases the mutex leaves no thread inside. -/
theorem lockedByOne_release (mtx : Bool) (l : List ThreadPc) (i : Nat) (a b : ThreadPc)
    (h : lockedByOne mtx l) (hb : l[i]? = some b) (hbc : b.crit = true) (hac : a.crit = false) :
    lockedByOne false (l.set i a) := by
  obtain ⟨_, _, h3⟩ := h
  have hnone : ∀ (j : Nat) (pc : ThreadPc), (l.set i a)[j]? = some pc → pc.crit = false := by
    intro j pc hj
    rcases set_cases l i a j pc hj with ⟨_, e⟩ | ⟨hne, hold⟩
    · rw [e]
      exact hac
    · cases hc : pc.crit with
      | false => rfl
      | true => exact absurd (h3 j i pc b hold hb hc hbc) hne
  refine ⟨fun _ => hnone, ?_, ?_⟩
  · intro hf
    exact absurd hf (by decide)
  · intro j k pj pk hj _ hcj _
    have := hnone j pj hj
    rw [hcj] at this
    exact absurd this (by decide)

theorem Inv_start (n : Nat) (app : Pcsx2App) (h0 : app.m_Resources = none)
    (hl : app.m_mtx_Resources = false) : (Concurrent.start n app).Inv app.constructed := by
  have hall : ∀ (j : Nat) (pc : ThreadPc),
      (Concurrent.start n app).threads[j]? = some pc → pc = ThreadPc.entry := by
    intro j pc h
    simp only [Concurrent.start, List.getElem?_replicate] at h
    split at h
    · simp at h
      exact h.symm
    · simp at h
  refine ⟨⟨?_, ?_, ?_⟩, ?_⟩
  · intro _ j pc h
    rw [hall j pc h]
    rfl
  · intro h
    simp only [Concurrent.start] at h
    rw [hl] at h
    exact absurd h (by decide)
  · intro j k pj pk hj _ hcj _
    rw [hall j pj hj] at hcj
    exact absurd hcj (by decide)
  · left
    refine ⟨h0, rfl, ?_⟩
    intro j pc h
    exact Or.inl (hall j pc h)

/-- Every step of a thread keeps the invariant. -/
theorem Inv_step (c : Nat) (s s1 : Concurrent) (i : Nat) (h : s.Inv c)
    (hs : s.step i = some s1) : s1.Inv c := by
  obtain ⟨hm, hp⟩ := h
  unfold Concurrent.step at hs
  split at hs
  · exact absurd hs (by simp)
  · -- the scoped lock is taken
    rename_i hi
    split at hs
    · exact absurd hs (by simp)
    · rename_i hfree
      simp only [Option.some.injEq] at hs
      subst hs
      have hfree2 : s.app.m_mtx_Resources = false := by simpa using hfree
      rw [hfree2] at hm
      refine ⟨lockedByOne_acquire _ i _ _ hm hi rfl, ?_⟩
      rcases hp with ⟨p1, p2, p3⟩ | ⟨p1, p2, p3⟩
      · left
        refine ⟨p1, p2, ?_⟩
        intro j pc hj
        rcases set_cases _ i _ j pc hj with ⟨_, e⟩ | ⟨_, hold⟩
        · exact Or.inr (Or.inl e)
        · exact p3 j pc hold
      · right
        refine ⟨p1, p2, ?_⟩
        intro j pc hj
        rcases set_cases _ i _ j pc hj with ⟨_, e⟩ | ⟨_, hold⟩
        · subst e
          exact ⟨by simp, by simp⟩
        · exact p3 j pc hold
  · -- the test of the slot
    rename_i hi
    split at hs
    · rename_i hnone
      simp only [Option.some.injEq] at hs
      subst hs
      refine ⟨lockedByOne_inside _ _ i _ _ hm hi rfl rfl, ?_⟩
      rcases hp with ⟨p1, p2, p3⟩ | ⟨p1, p2, p3⟩
      · left
        refine ⟨p1, p2, ?_⟩
        intro j pc hj
        rcases set_cases _ i _ j pc hj with ⟨_, e⟩ | ⟨_, hold⟩
        · exact Or.inr (Or.inr e)
        · exact p3 j pc hold
      · rw [p1] at hnone
        exact absurd hnone (by simp)
    · rename_i hsome
      simp only [Option.some.injEq] at hs
      subst hs
      refine ⟨lockedByOne_inside _ _ i _ _ hm hi rfl rfl, ?_⟩
      rcases hp with ⟨p1, p2, p3⟩ | ⟨p1, p2, p3⟩
      · rw [p1] at hsome
        exact absurd rfl hsome
      · right
        refine ⟨p1, p2, ?_⟩
        intro j pc hj
        rcases set_cases _ i _ j pc hj with ⟨_, e⟩ | ⟨_, hold⟩
        · subst e
          exact ⟨by simp, by simp⟩
        · exact p3 j pc hold
  · -- the construction
    rename_i hi
    simp only [Option.some.injEq] at hs
    subst hs
    refine ⟨lockedByOne_inside _ _ i _ _ hm hi rfl rfl, ?_⟩
    rcases hp with ⟨p1, p2, p3⟩ | ⟨p1, p2, p3⟩
    · right
      refine ⟨by simp [p2], by simp [p2], ?_⟩
      intro j pc hj
      rcases set_cases _ i _ j pc hj with ⟨_, e⟩ | ⟨hne, hold⟩
      · subst e
        exact ⟨by simp, by simp⟩
      · rcases p3 j pc hold with e | e | e
        · subst e
          exact ⟨by simp, by simp⟩
        · subst e
          exact absurd (hm.2.2 j i _ _ hold hi rfl rfl) hne
        · subst e
          exact absurd (hm.2.2 j i _ _ hold hi rfl rfl) hne
    · exact absurd rfl (p3 i _ hi).1
  · -- the return statement
    rename_i hi
    split at hs
    · exact absurd hs (by simp)
    · rename_i res hres
      simp only [Option.some.injEq] at hs
      subst hs
      refine ⟨lockedByOne_inside _ _ i _ _ hm hi rfl rfl, ?_⟩
      rcases hp with ⟨p1, p2, p3⟩ | ⟨p1, p2, p3⟩
      · rw [p1] at hres
        exact absurd hres (by simp)
      · right
        refine ⟨p1, p2, ?_⟩
        intro j pc hj
        rcases set_cases _ i _ j pc hj with ⟨_, e⟩ | ⟨_, hold⟩
        · subst e
          rw [p1] at hres
          simp only [Option.some.injEq] at hres
          refine ⟨by simp, ?_⟩
          intro r hr
          simp only [ThreadPc.unlock.injEq, reduceCtorEq, or_false] at hr
          rw [← hr, ← hres]
        · exact p3 j pc hold
  · -- the release of the scoped lock
    rename_i res hi
    simp only [Option.some.injEq] at hs
    subst hs
    refine ⟨lockedByOne_release _ _ i _ _ hm hi rfl rfl, ?_⟩
    rcases hp with ⟨p1, p2, p3⟩ | ⟨p1, p2, p3⟩
    · rcases p3 i _ hi with e | e | e <;> exact absurd e (by simp)
    · right
      refine ⟨p1, p2, ?_⟩
      intro j pc hj
      rcases set_cases _ i _ j pc hj with ⟨_, e⟩ | ⟨_, hold⟩
      · subst e
        refine ⟨by simp, ?_⟩
        intro r hr
        simp only [reduceCtorEq, ThreadPc.done.injEq, false_or] at hr
        rw [← hr]
        exact (p3 i _ hi).2 res (Or.inl rfl)
      · exact p3 j pc hold
  · exact absurd hs (by simp)

/-- Every state reached by a schedule satisfies the invariant. -/
theorem Inv_run (c : Nat) (sched : List Nat) (s s1 : Concurrent) (h : s.Inv c)
    (hr : Concurrent.run sched s = some s1) : s1.Inv c := by
  induction sched generalizing s with
  | nil =>
    simp only [Concurrent.run, Option.some.injEq] at hr
    subst hr
    exact h
  | cons i rest ih =>
    unfold Concurrent.run at hr
    split at hr
    · exact absurd hr (by simp)
    · rename_i s2 hstep
      exact ih s2 (Inv_step c s s2 i h hstep) hr

theorem step_length (s s1 : Concurrent) (i : Nat) (hs : s.step i = some s1) :
    s1.threads.length = s.threads.length := by
  unfold Concurrent.step at hs
  split at hs
  · exact absurd hs (by simp)
  · split at hs
    · exact absurd hs (by simp)
    · simp only [Option.some.injEq] at hs
      subst hs
      simp
  · split at hs <;>
    · simp only [Option.some.injEq] at hs
      subst hs
      simp
  · simp only [Option.some.injEq] at hs
    subst hs
    simp
  · split at hs
    · exact absurd hs (by simp)
    · simp only [Option.some.injEq] at hs
      subst hs
      simp
  · simp only [Option.some.injEq] at hs
    subst hs
    simp
  · exact absurd hs (by simp)

theorem sum_remaining_set (l : List ThreadPc) (i : Nat) (a b : ThreadPc) (hb : l[i]? = some b) :
    ((l.set i a).map ThreadPc.remaining).sum + b.remaining
      = (l.map ThreadPc.remaining).sum + a.remaining := by
  induction l generalizing i with
  | nil => simp at hb
  | cons x xs ih =>
    cases i with
    | zero =>
      simp only [List.getElem?_cons_zero, Option.some.injEq] at hb
      subst hb
      simp only [List.set_cons_zero, List.map_cons, List.sum_cons]
      omega
    | succ k =>
      simp only [List.getElem?_cons_succ] at hb
      have := ih k hb
      simp only [List.set_cons_succ, List.map_cons, List.sum_cons]
      omega

/-- Every step uses up at least one of the steps the threads can still take. -/
theorem step_remaining (s s1 : Concurrent) (i : Nat) (hs : s.step i = some s1) :
    s1.remaining + 1 ≤ s.remaining := by
  unfold Concurrent.step at hs
  unfold Concurrent.remaining
  split at hs
  · exact absurd hs (by simp)
  · rename_i hi
    split at hs
    · exact absurd hs (by simp)
    · simp only [Option.some.injEq] at hs
      subst hs
      have := sum_remaining_set s.threads i ThreadPc.test _ hi
      simp only [ThreadPc.remaining] at this ⊢
      omega
  · rename_i hi
    split at hs
    · simp only [Option.some.injEq] at hs
      subst hs
      have := sum_remaining_set s.threads i ThreadPc.construct _ hi
      simp only [ThreadPc.remaining] at this ⊢
      omega
    · simp only [Option.some.injEq] at hs
      subst hs
      have := sum_remaining_set s.threads i ThreadPc.ret _ hi
      simp only [ThreadPc.remaining] at this ⊢
      omega
  · rename_i hi
    simp only [Option.some.injEq] at hs
    subst hs
    have := sum_remaining_set s.threads i ThreadPc.ret _ hi
    simp only [ThreadPc.remaining] at this ⊢
    omega
  · rename_i hi
    split at hs
    · exact absurd hs (by simp)
    · rename_i res _
      simp only [Option.some.injEq] at hs
      subst hs
      have := sum_remaining_set s.threads i (ThreadPc.unlock res) _ hi
      simp only [ThreadPc.remaining] at this ⊢
      omega
  · rename_i res hi
    simp only [Option.some.injEq] at hs
    subst hs
    have := sum_remaining_set s.threads i (ThreadPc.done res) _ hi
    simp only [ThreadPc.remaining] at this ⊢
    omega
  · exact absurd hs (by simp)

theorem run_length (sched : List Nat) (s s1 : Concurrent)
    (hr : Concurrent.run sched s = some s1) :
    sched.length + s1.remaining ≤ s.remaining ∧ s1.threads.length = s.threads.length := by
  induction sched generalizing s with
  | nil =>
    simp only [Concurrent.run, Option.some.injEq] at hr
    subst hr
    simp
  | cons i rest ih =>
    unfold Concurrent.run at hr
    split at hr
    · exact absurd hr (by simp)
    · rename_i s2 hstep
      have h1 := step_remaining s s2 i hstep
      have h2 := step_length s s2 i hstep
      have h3 := ih s2 hr
      simp only [List.length_cons]
      constructor
      · omega
      · rw [h3.2, h2]

theorem run_append (a b : List Nat) (s s1 s2 : Concurrent)
    (h1 : Concurrent.run a s = some s1) (h2 : Concurrent.run b s1 = some s2) :
    Concurrent.run (a ++ b) s = some s2 := by
  induction a generalizing s with
  | nil =>
    simp only [Concurrent.run, Option.some.injEq] at h1
    subst h1
    exact h2
  | cons i rest ih =>
    unfold Concurrent.run at h1
    split at h1
    · exact absurd h1 (by simp)
    · rename_i s3 hstep
      simp only [List.cons_append, Concurrent.run, hstep]
      exact ih s3 h1

theorem start_remaining (n : Nat) (app : Pcsx2App) :
    (Concurrent.start n app).remaining = 5 * n := by
  simp [Concurrent.start, Concurrent.remaining, ThreadPc.remaining, Nat.mul_comm]

/-- No deadlock: while a thread has not returned, some thread can move. -/
theorem Inv_progress (c : Nat) (s : Concurrent) (h : s.Inv c)
    (hnd : ∃ (i : Nat) (pc : ThreadPc), s.threads[i]? = some pc ∧ pc.isDone = false) :
    ∃ (i : Nat) (s1 : Concurrent), s.step i = some s1 := by
  obtain ⟨⟨h1, h2, _⟩, hp⟩ := h
  have hex : ∀ i : Nat, (s.step i).isSome = true → ∃ (i : Nat) (s1 : Concurrent),
      s.step i = some s1 := fun i hsome => ⟨i, Option.isSome_iff_exists.mp hsome⟩
  cases hmtx : s.app.m_mtx_Resources with
  | false =>
    obtain ⟨i, pc, hi, hd⟩ := hnd
    have hnc := h1 hmtx i pc hi
    cases pc with
    | entry =>
      apply hex i
      unfold Concurrent.step
      rw [hi]
      simp [hmtx]
    | test => exact absurd hnc (by decide)
    | construct => exact absurd hnc (by decide)
    | ret => exact absurd hnc (by decide)
    | unlock r => exact absurd hnc (by simp [ThreadPc.crit])
    | done r => exact absurd hd (by simp [ThreadPc.isDone])
  | true =>
    obtain ⟨j, pc, hj, hc⟩ := h2 hmtx
    cases pc with
    | entry => exact absurd hc (by decide)
    | test =>
      apply hex j
      unfold Concurrent.step
      rw [hj]
      simp only
      split <;> rfl
    | construct =>
      apply hex j
      unfold Concurrent.step
      rw [hj]
      rfl
    | ret =>
      rcases hp with ⟨_, _, p3⟩ | ⟨p1, _, _⟩
      · rcases p3 j _ hj with e | e | e <;> exact absurd e (by simp)
      · apply hex j
        unfold Concurrent.step
        rw [hj]
        simp [p1]
    | unlock r =>
      apply hex j
      unfold Concurrent.step
      rw [hj]
      rfl
    | done r => exact absurd hc (by simp [ThreadPc.crit])

/-- Every state that satisfies the invariant can be run to a state in which
every thread has returned. -/
theorem Inv_complete (c : Nat) (k : Nat) (s : Concurrent) (h : s.Inv c)
    (hk : s.remaining ≤ k) :
    ∃ (more : List Nat) (s1 : Concurrent), Concurrent.run more s = some s1 ∧
      ∀ (i : Nat) (pc : ThreadPc), s1.threads[i]? = some pc → pc.isDone = true := by
  induction k generalizing s with
  | zero =>
    by_cases hall : ∀ (i : Nat) (pc : ThreadPc), s.threads[i]? = some pc → pc.isDone = true
    · exact ⟨[], s, rfl, hall⟩
    · have hnd : ∃ (i : Nat) (pc : ThreadPc), s.threads[i]? = some pc ∧ pc.isDone = false := by
        by_contra hcon
        apply hall
        intro i pc hi
        cases hd : pc.isDone with
        | true => rfl
        | false => exact absurd ⟨i, pc, hi, hd⟩ hcon
      obtain ⟨i, s1, hstep⟩ := Inv_progress c s h hnd
      have := step_remaining s s1 i hstep
      omega
  | succ m ih =>
    by_cases hall : ∀ (i : Nat) (pc : ThreadPc), s.threads[i]? = some pc → pc.isDone = true
    · exact ⟨[], s, rfl, hall⟩
    · have hnd : ∃ (i : Nat) (pc : ThreadPc), s.threads[i]? = some pc ∧ pc.isDone = false := by
        by_contra hcon
        apply hall
        intro i pc hi
        cases hd : pc.isDone with
        | true => rfl
        | false => exact absurd ⟨i, pc, hi, hd⟩ hcon
      obtain ⟨i, s1, hstep⟩ := Inv_progress c s h hnd
      have hrem := step_remaining s s1 i hstep
      obtain ⟨more, s2, hrun, hdone⟩ := ih s1 (Inv_step c s s1 i h hstep) (by omega)
      refine ⟨i :: more, s2, ?_, hdone⟩
      simp only [Concurrent.run, hstep]
      exact hrun

/-- When every thread has returned, every thread has returned the instance
constructed first, and that instance is the one held. -/
theorem Inv_all_done (c : Nat) (s : Concurrent) (h : s.Inv c)
    (hall : ∀ (i : Nat) (pc : ThreadPc), s.threads[i]? = some pc → pc.isDone = true) :
    s.threads = List.replicate s.threads.length (ThreadPc.done { id := c }) ∧
    (0 < s.threads.length →
      s.app.constructed = c + 1 ∧ s.app.m_Resources = some { id := c }) := by
  obtain ⟨_, hp⟩ := h
  constructor
  · rw [List.eq_replicate_iff]
    refine ⟨rfl, ?_⟩
    intro b hb
    obtain ⟨i, hi⟩ := List.mem_iff_getElem?.mp hb
    have hd := hall i b hi
    cases b with
    | done r =>
      rcases hp with ⟨_, _, p3⟩ | ⟨_, _, p3⟩
      · rcases p3 i _ hi with e | e | e <;> exact absurd e (by simp)
      · rw [(p3 i _ hi).2 r (Or.inr rfl)]
    | entry => exact absurd hd (by decide)
    | test => exact absurd hd (by decide)
    | construct => exact absurd hd (by decide)
    | ret => exact absurd hd (by decide)
    | unlock r => exact absurd hd (by simp [ThreadPc.isDone])
  · intro hpos
    have hsome : ∃ pc, s.threads[0]? = some pc := by
      cases hth : s.threads with
      | nil => rw [hth] at hpos; simp at hpos
      | cons x xs => exact ⟨x, by simp⟩
    obtain ⟨pc, h0⟩ := hsome
    have hd := hall 0 pc h0
    rcases hp with ⟨_, _, p3⟩ | ⟨p1, p2, _⟩
    · rcases p3 0 pc h0 with e | e | e <;>
      · subst e
        exact absurd hd (by decide)
    · exact ⟨p2, p1⟩

/-- A single thread that runs GetResourceCache step by step, with no other
thread, returns what the function gives when it is taken as one action, and
leaves the application as the function leaves it. -/
theorem run_single_thread (app : Pcsx2App) (hl : app.m_mtx_Resources = false) :
    ∃ (res : pxAppResources) (app1 : Pcsx2App),
      app.GetResourceCache = some (res, app1) ∧
      Concurrent.run (if app.m_Resources.isNone then [0, 0, 0, 0, 0] else [0, 0, 0, 0])
          (Concurrent.start 1 app)
        = some { app := app1, threads := [ThreadPc.done res] } := by
  cases app with
  | mk slot mtx cnt =>
    simp only at hl
    subst hl
    cases slot with
    | none => exact ⟨_, _, rfl, rfl⟩
    | some r => exact ⟨_, _, rfl, rfl⟩

/-- C11. When n threads call GetResourceCache at the same time on an
application with an empty slot and a free mutex, then in every state that any
interleaving of their steps reaches: at most one instance has been constructed;
every call that has returned has returned the instance constructed first, which
is the one held; the mutex is locked exactly when one thread is between the
lock and its release, and no two threads are; the threads have taken at most
5n steps; while a call has not returned some thread can move; and the steps
taken can be continued to a state in which all n calls have returned that same
instance, with exactly one instance constructed when n is positive. -/
theorem GetResourceCache_concurrent_once (n : Nat) (app : Pcsx2App)
    (h0 : app.m_Resources = none) (hl : app.m_mtx_Resources = false)
    (sched : List Nat) (s : Concurrent)
    (hr : Concurrent.run sched (Concurrent.start n app) = some s) :
    s.app.constructed ≤ app.constructed + 1 ∧
    (∀ (i : Nat) (res : pxAppResources), s.threads[i]? = some (ThreadPc.done res) →
      res = { id := app.constructed } ∧
      s.app.m_Resources = some { id := app.constructed } ∧
      s.app.constructed = app.constructed + 1) ∧
    lockedByOne s.app.m_mtx_Resources s.threads ∧
    sched.length ≤ 5 * n ∧
    ((∃ (i : Nat) (pc : ThreadPc), s.threads[i]? = some pc ∧ pc.isDone = false) →
      ∃ (i : Nat) (s1 : Concurrent), s.step i = some s1) ∧
    (∃ (more : List Nat) (s1 : Concurrent),
      Concurrent.run (sched ++ more) (Concurrent.start n app) = some s1 ∧
      s1.threads = List.replicate n (ThreadPc.done { id := app.constructed }) ∧
      (0 < n → s1.app.constructed = app.constructed + 1 ∧
        s1.app.m_Resources = some { id := app.constructed })) := by
  have hinv := Inv_run app.constructed sched _ s (Inv_start n app h0 hl) hr
  have hlen := run_length sched _ s hr
  rw [start_remaining] at hlen
  have hthreads : s.threads.length = n := by
    rw [hlen.2]
    simp [Concurrent.start]
  refine ⟨?_, ?_, hinv.1, by omega, Inv_progress _ s hinv, ?_⟩
  · rcases hinv.2 with ⟨_, p2, _⟩ | ⟨_, p2, _⟩ <;> omega
  · intro i res hi
    rcases hinv.2 with ⟨_, _, p3⟩ | ⟨p1, p2, p3⟩
    · rcases p3 i _ hi with e | e | e <;> exact absurd e (by simp)
    · exact ⟨(p3 i _ hi).2 res (Or.inr rfl), p1, p2⟩
  · obtain ⟨more, s1, hrun, hdone⟩ := Inv_complete app.constructed s.remaining s hinv (le_refl _)
    have hinv1 := Inv_run app.constructed more s s1 hinv hrun
    have hlen1 := run_length more s s1 hrun
    obtain ⟨ht, hc⟩ := Inv_all_done app.constructed s1 hinv1 hdone
    have hn1 : s1.threads.length = n := by rw [hlen1.2, hthreads]
    rw [hn1] at ht hc
    exact ⟨more, s1, run_append sched more _ s s1 hr hrun, ht, hc⟩

/-- A use of C11: two threads, the second of which takes the mutex first; it
constructs the instance, the first thread finds it, and both calls return the
instance numbered 0. -/
theorem GetResourceCache_concurrent_once_witness :
    Concurrent.run [1, 1, 1, 1, 1, 0, 0, 0, 0]
        (Concurrent.start 2 { m_Resources := none, m_mtx_Resources := false, constructed := 0 })
      = some { app := { m_Resources := some { id := 0 }, m_mtx_Resources := false,
                        constructed := 1 },
               threads := [ThreadPc.done { id := 0 }, ThreadPc.done { id := 0 }] } ∧
    (∀ (i : Nat) (res : pxAppResources),
      [ThreadPc.done { id := 0 }, ThreadPc.done { id := 0 }][i]? = some (ThreadPc.done res) →
      res = { id := 0 } ∧
      (some { id := 0 } : Option pxAppResources) = some { id := 0 } ∧ 1 = 0 + 1) :=
  ⟨by decide,
   (GetResourceCache_concurrent_once 2
      { m_Resources := none, m_mtx_Resources := false, constructed := 0 } rfl rfl
      [1, 1, 1, 1, 1, 0, 0, 0, 0]
      { app := { m_Resources := some { id := 0 }, m_mtx_Resources := false, constructed := 1 },
        threads := [ThreadPc.done { id := 0 }, ThreadPc.done { id := 0 }] }
      (by decide)).2.1⟩

end Pcsx2
